import Mathlib

/-!
Verification of the Qazna ledger service against its natural-language
specification.  The definitions below are shallow embeddings of the Go
source files of the repository (`internal/ledger/service.go`,
`internal/httpapi/middleware.go`, `internal/httpapi/ledger_handlers.go`,
`internal/auth/auth.go`, `internal/migrate/manager.go`, and the bcrypt
password helpers).  Go `map` values are modelled as association lists,
Go `int64` arithmetic as mathematical integers wrapped into the two's
complement range where the code performs arithmetic, and the heap
sharing of `map[string]int64` balance maps is made explicit through a
pointer-indexed heap, so that the copying behaviour of `GetAccount`
is faithfully represented.
-/

namespace Qazna

/-- View of an `Except` value as a sum, used to decide equality of results. -/
def exceptToSum {ε α : Type} : Except ε α → ε ⊕ α
  | .error e => .inl e
  | .ok a => .inr a

instance {ε α : Type} [DecidableEq ε] [DecidableEq α] : DecidableEq (Except ε α) := fun a b =>
  decidable_of_iff (exceptToSum a = exceptToSum b)
    (by cases a <;> cases b <;> simp [exceptToSum])

/-- Lookup in an association list: returns the value of the first pair whose
key matches, like reading from a Go map (which holds at most one entry per
key; our states only ever hold one entry per key as well). -/
def alookup {κ α : Type} [DecidableEq κ] : List (κ × α) → κ → Option α
  | [], _ => none
  | (k, v) :: rest, key => if k = key then some v else alookup rest key

/-- Write to an association list: replaces the first pair whose key matches,
or appends a fresh pair, like `m[k] = v` on a Go map. -/
def aset {κ α : Type} [DecidableEq κ] : List (κ × α) → κ → α → List (κ × α)
  | [], key, val => [(key, val)]
  | (k, v) :: rest, key, val =>
    if k = key then (k, val) :: rest else (k, v) :: aset rest key val

/-- Two's-complement wrap of an integer into the `int64` range, the result of
Go's 64-bit signed arithmetic. -/
def wrap64 (n : Int) : Int := (n + 2 ^ 63) % 2 ^ 64 - 2 ^ 63

/-- Money, from `internal/ledger/models` (`Money` struct): a currency code and
an amount of minor units stored in a Go `int64`. -/
structure Money where
  currency : String
  amount : Int
deriving DecidableEq, Repr

/-- `Money.IsPositive` from the source: `m.Amount > 0`. -/
def Money.isPositive (m : Money) : Bool := m.amount > 0

/-- An account as stored by the in-memory ledger.  In Go the struct holds
`Balances map[string]int64`; the map reference is modelled as the pointer
`balPtr` into the balance heap of the ledger state.  Account ids are the
random `uuid16()` strings in Go; they are modelled by the unique values of a
fresh-id counter (the code relies on the ids never colliding). -/
structure Account where
  id : Nat
  createdAt : Nat
  balPtr : Nat
deriving DecidableEq, Repr

/-- A committed transfer, from the `Transaction` struct of the ledger
package. -/
structure Transaction where
  id : Nat
  createdAt : Nat
  fromAccountID : Nat
  toAccountID : Nat
  currency : String
  amount : Int
  idempotencyKey : String
  sequence : Nat
deriving DecidableEq, Repr

/-- Errors returned by the ledger service (`ErrNotFound`,
`ErrInsufficientFunds`, `ErrInvalidAmount`, `ErrInvalidCurrency`). -/
inductive LErr where
  | notFound
  | insufficientFunds
  | invalidAmount
  | invalidCurrency
deriving DecidableEq, Repr

/-- State of the `InMemory` ledger backend: the `accts` map, the sequence
counter, the ordered transaction list, and the idempotency cache, together
with the heap of balance maps (`heap`), a fresh-pointer counter, a fresh-id
counter standing for `uuid16()`, and a monotone clock standing for
`time.Now()`. -/
structure LState where
  accts : List (Nat × Account)
  seq : Nat
  txs : List Transaction
  idem : List (String × Transaction)
  heap : List (Nat × List (String × Int))
  nextPtr : Nat
  nextId : Nat
  clock : Nat
deriving DecidableEq, Repr

/-- `NewInMemory()`: the fresh ledger. -/
def initState : LState :=
  { accts := [], seq := 0, txs := [], idem := [], heap := [],
    nextPtr := 0, nextId := 0, clock := 0 }

/-- Reading a Go balance map: `acc.Balances[currency]` yields the stored
value or the zero value `0`. -/
def balGet (b : List (String × Int)) (c : String) : Int :=
  (alookup b c).getD 0

/-- Writing a Go balance map entry. -/
def balSet (b : List (String × Int)) (c : String) (v : Int) : List (String × Int) :=
  aset b c v

/-- The balance map a pointer refers to (a dangling pointer never occurs in a
reachable state and reads as the empty map). -/
def heapGet (s : LState) (p : Nat) : List (String × Int) :=
  (alookup s.heap p).getD []

/-- `InMemory.CreateAccount`: validates the seed (`ErrInvalidCurrency` for an
empty currency, `ErrInvalidAmount` for a negative amount), then allocates a
fresh id and a fresh single-entry balance map. -/
def createAccount (s : LState) (initial : Money) : Except LErr Account × LState :=
  if initial.currency = "" then (.error .invalidCurrency, s)
  else if initial.amount < 0 then (.error .invalidAmount, s)
  else
    let acc : Account := { id := s.nextId, createdAt := s.clock, balPtr := s.nextPtr }
    (.ok acc,
      { s with
        accts := aset s.accts s.nextId acc,
        heap := aset s.heap s.nextPtr [(initial.currency, initial.amount)],
        nextPtr := s.nextPtr + 1,
        nextId := s.nextId + 1,
        clock := s.clock + 1 })

/-- `InMemory.GetAccount`: looks the account up and returns a copy whose
`Balances` map is a freshly allocated map holding the same entries (the
`out.Balances = map[string]int64{}` copy loop); the fresh allocation is a
new heap cell. -/
def getAccount (s : LState) (id : Nat) : Except LErr Account × LState :=
  match alookup s.accts id with
  | none => (.error .notFound, s)
  | some acc =>
    (.ok { acc with balPtr := s.nextPtr },
      { s with
        heap := aset s.heap s.nextPtr (heapGet s acc.balPtr),
        nextPtr := s.nextPtr + 1 })

/-- `InMemory.GetBalance`: `Money{Currency: currency, Amount: acc.Balances[currency]}`,
or `ErrNotFound` when the account is missing. -/
def getBalance (s : LState) (id : Nat) (currency : String) : Except LErr Money × LState :=
  match alookup s.accts id with
  | none => (.error .notFound, s)
  | some acc => (.ok { currency := currency, amount := balGet (heapGet s acc.balPtr) currency }, s)

/-- The two in-place balance-map mutations of `InMemory.Transfer`
(`from.Balances[c] -= amt` followed by `to.Balances[c] += amt`), on the
balance heap.  The `to` balance is read after the `from` write, exactly as
the shared Go maps behave, so a self-transfer nets to zero. -/
def applyTransfer (heap : List (Nat × List (String × Int))) (fromPtr toPtr : Nat)
    (cur : String) (a : Int) : List (Nat × List (String × Int)) :=
  let fromBal := (alookup heap fromPtr).getD []
  let heap1 := aset heap fromPtr (balSet fromBal cur (wrap64 (balGet fromBal cur - a)))
  let toBal := (alookup heap1 toPtr).getD []
  aset heap1 toPtr (balSet toBal cur (wrap64 (balGet toBal cur + a)))

/-- `InMemory.Transfer`, line by line: amount validation, currency validation,
idempotency-cache lookup, account lookups, the insufficient-funds check, the
in-place balance mutations, sequence allocation, transaction append and
idempotency-cache insertion. -/
def transfer (s : LState) (fromID toID : Nat) (amt : Money) (idemKey : String) :
    Except LErr Transaction × LState :=
  if ¬ amt.isPositive then (.error .invalidAmount, s)
  else if amt.currency = "" then (.error .invalidCurrency, s)
  else
    match (if idemKey ≠ "" then alookup s.idem idemKey else none) with
    | some tx => (.ok tx, s)
    | none =>
      match alookup s.accts fromID with
      | none => (.error .notFound, s)
      | some fromAcc =>
        match alookup s.accts toID with
        | none => (.error .notFound, s)
        | some toAcc =>
          if balGet (heapGet s fromAcc.balPtr) amt.currency < amt.amount then
            (.error .insufficientFunds, s)
          else
            let tx : Transaction :=
              { id := s.nextId, createdAt := s.clock, fromAccountID := fromID,
                toAccountID := toID, currency := amt.currency, amount := amt.amount,
                idempotencyKey := idemKey, sequence := s.seq + 1 }
            (.ok tx,
              { s with
                heap := applyTransfer s.heap fromAcc.balPtr toAcc.balPtr amt.currency amt.amount,
                seq := s.seq + 1,
                txs := s.txs ++ [tx],
                idem := if idemKey ≠ "" then aset s.idem idemKey tx else s.idem,
                nextId := s.nextId + 1,
                clock := s.clock + 1 })

/-- The loop body of `InMemory.ListTransactions`: skip sequences at or below
the cursor, collect up to `lim` items, remember the last collected
sequence. -/
def listLoop (lim : Int) (afterSeq : Nat) :
    List Transaction → List Transaction → Nat → List Transaction × Nat
  | [], acc, last => (acc.reverse, last)
  | tx :: rest, acc, last =>
    if tx.sequence ≤ afterSeq then listLoop lim afterSeq rest acc last
    else
      if (acc.length + 1 : Int) ≥ lim then ((tx :: acc).reverse, tx.sequence)
      else listLoop lim afterSeq rest (tx :: acc) tx.sequence

/-- `InMemory.ListTransactions`: limit defaulting (`limit <= 0 || limit > 1000`
becomes 100) followed by the collection loop. -/
def listTransactions (s : LState) (limit : Int) (afterSeq : Nat) :
    (List Transaction × Nat) × LState :=
  let lim := if limit ≤ 0 ∨ limit > 1000 then 100 else limit
  (listLoop lim afterSeq s.txs [] 0, s)

/-- One ledger client request, for quantifying over operation sequences. -/
inductive Op where
  | create (seed : Money)
  | xfer (fromID toID : Nat) (amt : Money) (idemKey : String)
  | getAcct (id : Nat)
  | getBal (id : Nat) (currency : String)
  | list (limit : Int) (afterSeq : Nat)
deriving DecidableEq, Repr

/-- The value a ledger operation returns to its caller. -/
inductive Out where
  | acct (r : Except LErr Account)
  | tx (r : Except LErr Transaction)
  | money (r : Except LErr Money)
  | txPage (r : List Transaction × Nat)
deriving DecidableEq, Repr

/-- Dispatch one operation on the ledger state. -/
def step (s : LState) : Op → Out × LState
  | .create seed => let r := createAccount s seed; (.acct r.1, r.2)
  | .xfer f t amt key => let r := transfer s f t amt key; (.tx r.1, r.2)
  | .getAcct id => let r := getAccount s id; (.acct r.1, r.2)
  | .getBal id c => let r := getBalance s id c; (.money r.1, r.2)
  | .list lim aft => let r := listTransactions s lim aft; (.txPage r.1, r.2)

/-- Run a sequence of operations, collecting the returned values. -/
def run : List Op → LState → List Out × LState
  | [], s => ([], s)
  | op :: rest, s =>
    let r := step s op
    let r2 := run rest r.2
    (r.1 :: r2.1, r2.2)

/-- The final state after a sequence of operations on a fresh ledger. -/
def runState (ops : List Op) : LState := (run ops initState).2

/-- The balance-map pointers held by the stored accounts. -/
def acctPtrs (s : LState) : List Nat := s.accts.map (fun e => e.2.balPtr)

/-- Well-formedness of a ledger state: account keys and balance pointers are
pairwise distinct and below their respective fresh counters (this is the
freshness guarantee that Go gets from allocating a new map per account). -/
def WF (s : LState) : Prop :=
  (s.accts.map (fun e => e.1)).Nodup ∧
  (∀ k ∈ s.accts.map (fun e => e.1), k < s.nextId) ∧
  (acctPtrs s).Nodup ∧
  (∀ p ∈ acctPtrs s, p < s.nextPtr)

instance (s : LState) : Decidable (WF s) := by
  unfold WF; infer_instance

theorem alookup_aset_self {κ α : Type} [DecidableEq κ] (l : List (κ × α)) (k : κ) (v : α) :
    alookup (aset l k v) k = some v := by
  induction l with
  | nil => simp [aset, alookup]
  | cons e rest ih =>
    by_cases h : e.1 = k
    · simp [aset, alookup, h]
    · simp [aset, alookup, h, ih]

theorem alookup_aset_ne {κ α : Type} [DecidableEq κ] (l : List (κ × α)) {k key : κ} (v : α)
    (h : k ≠ key) : alookup (aset l k v) key = alookup l key := by
  induction l with
  | nil => simp [aset, alookup, h]
  | cons e rest ih =>
    by_cases he : e.1 = k
    · have hs : aset (e :: rest) k v = (e.1, v) :: rest := by simp [aset, he]
      rw [hs]
      simp [alookup, he, h]
    · have hs : aset (e :: rest) k v = e :: aset rest k v := by simp [aset, he]
      rw [hs]
      by_cases hk : e.1 = key <;> simp [alookup, hk, ih]

theorem alookup_mem {κ α : Type} [DecidableEq κ] {l : List (κ × α)} {k : κ} {v : α}
    (h : alookup l k = some v) : (k, v) ∈ l := by
  induction l with
  | nil => simp [alookup] at h
  | cons e rest ih =>
    by_cases he : e.1 = k
    · simp only [alookup, he, if_pos] at h
      have he2 : e = (k, v) := by
        cases e
        simp_all
      rw [he2]
      exact List.mem_cons_self _ _
    · simp only [alookup, he, if_neg, if_false] at h
      exact List.mem_cons_of_mem _ (ih h)

theorem aset_of_not_mem_key {κ α : Type} [DecidableEq κ] {l : List (κ × α)} {k : κ} (v : α)
    (h : ∀ e ∈ l, e.1 ≠ k) : aset l k v = l ++ [(k, v)] := by
  induction l with
  | nil => simp [aset]
  | cons e rest ih =>
    have he : e.1 ≠ k := h e (List.mem_cons_self e rest)
    simp [aset, he]
    exact ih fun x hx => h x (List.mem_cons_of_mem _ hx)

theorem balGet_balSet_self (b : List (String × Int)) (c : String) (v : Int) :
    balGet (balSet b c v) c = v := by
  simp [balGet, balSet, alookup_aset_self]

theorem balGet_balSet_ne (b : List (String × Int)) {c cc : String} (v : Int) (h : c ≠ cc) :
    balGet (balSet b c v) cc = balGet b cc := by
  simp [balGet, balSet, alookup_aset_ne _ _ h]

/-- Sum of the balances in currency `c` of the accounts listed in `accts`,
read through the balance heap. -/
def sumBalAux (heap : List (Nat × List (String × Int))) (accts : List (Nat × Account))
    (c : String) : Int :=
  (accts.map (fun e => balGet ((alookup heap e.2.balPtr).getD []) c)).sum

/-- Sum of all account balances of a ledger state in currency `c`. -/
def sumBal (s : LState) (c : String) : Int := sumBalAux s.heap s.accts c

theorem sumBalAux_aset_not_mem {heap : List (Nat × List (String × Int))}
    {accts : List (Nat × Account)} {p : Nat} (v : List (String × Int)) (c : String)
    (h : p ∉ accts.map (fun e => e.2.balPtr)) :
    sumBalAux (aset heap p v) accts c = sumBalAux heap accts c := by
  induction accts with
  | nil => rfl
  | cons e rest ih =>
    simp only [List.map_cons, List.mem_cons] at h
    push_neg at h
    have ht := ih h.2
    simp only [sumBalAux, List.map_cons, List.sum_cons] at ht ⊢
    rw [alookup_aset_ne _ _ h.1, ht]

theorem sumBalAux_aset_mem {heap : List (Nat × List (String × Int))}
    {accts : List (Nat × Account)} {p : Nat} (v : List (String × Int)) (c : String)
    (hnd : (accts.map (fun e => e.2.balPtr)).Nodup)
    {k : Nat} {a : Account} (hmem : (k, a) ∈ accts) (hp : a.balPtr = p) :
    sumBalAux (aset heap p v) accts c =
      sumBalAux heap accts c + (balGet v c - balGet ((alookup heap p).getD []) c) := by
  induction accts with
  | nil => simp at hmem
  | cons e rest ih =>
    simp only [List.map_cons, List.nodup_cons] at hnd
    rcases List.mem_cons.mp hmem with heq | hrest
    · have hep : e.2.balPtr = p := by rw [← heq]; exact hp
      have hnot : p ∉ rest.map (fun x => x.2.balPtr) := hep ▸ hnd.1
      simp only [sumBalAux, List.map_cons, List.sum_cons]
      rw [hep, alookup_aset_self]
      have := @sumBalAux_aset_not_mem heap rest p v c hnot
      simp only [sumBalAux] at this
      rw [this]
      simp only [Option.getD_some]
      ring
    · have hep : e.2.balPtr ≠ p := by
        intro hq
        exact hnd.1 (hq ▸ hp ▸ (List.mem_map.mpr ⟨(k, a), hrest, rfl⟩))
      simp only [sumBalAux, List.map_cons, List.sum_cons]
      rw [alookup_aset_ne _ _ (fun hq => hep hq.symm)]
      have := ih hnd.2 hrest
      simp only [sumBalAux] at this
      rw [this]
      ring

theorem wrap64_modEq (n : Int) : wrap64 n ≡ n [ZMOD (2 ^ 64)] := by
  unfold wrap64
  have h1 : (n + 2 ^ 63) % 2 ^ 64 ≡ n + 2 ^ 63 [ZMOD (2 ^ 64)] :=
    Int.emod_emod_of_dvd _ dvd_rfl
  have h2 := h1.sub_right (2 ^ 63)
  have h3 : n + 2 ^ 63 - 2 ^ 63 = n := by ring
  rw [h3] at h2
  exact h2

theorem createAccount_accts_of_wf {s : LState} (hwf : WF s) (m : Money)
    (hc : ¬ m.currency = "") (ha : ¬ m.amount < 0) :
    (createAccount s m).2.accts =
      s.accts ++ [(s.nextId, { id := s.nextId, createdAt := s.clock, balPtr := s.nextPtr })] := by
  simp only [createAccount, hc, ha, if_false, ite_false]
  exact aset_of_not_mem_key _ fun e he hk => by
    have := hwf.2.1 e.1 (List.mem_map.mpr ⟨e, he, rfl⟩)
    omega

theorem wf_step (s : LState) (op : Op) (hwf : WF s) : WF (step s op).2 := by
  obtain ⟨hk, hkb, hp, hpb⟩ := hwf
  cases op with
  | create m =>
    by_cases hc : m.currency = ""
    · have hs : (step s (.create m)).2 = s := by simp [step, createAccount, hc]
      rw [hs]
      exact ⟨hk, hkb, hp, hpb⟩
    · by_cases ha : m.amount < 0
      · have hs : (step s (.create m)).2 = s := by simp [step, createAccount, hc, ha]
        rw [hs]
        exact ⟨hk, hkb, hp, hpb⟩
      · have hacc := createAccount_accts_of_wf ⟨hk, hkb, hp, hpb⟩ m hc ha
        have hrest : (createAccount s m).2.nextId = s.nextId + 1 ∧
            (createAccount s m).2.nextPtr = s.nextPtr + 1 := by
          simp [createAccount, hc, ha]
        refine ⟨?_, ?_, ?_, ?_⟩ <;>
          simp only [step, hacc, hrest.1, hrest.2, acctPtrs, List.map_append, List.map_cons,
            List.map_nil, List.nodup_append, List.mem_append, List.mem_singleton]
        · refine ⟨hk, by simp, ?_⟩
          intro x hx
          have := hkb x hx
          simp only [List.mem_cons, List.not_mem_nil, or_false]
          omega
        · rintro k (hx | hx)
          · have := hkb k hx
            omega
          · omega
        · refine ⟨hp, by simp, ?_⟩
          intro x hx
          have := hpb x hx
          simp only [List.mem_cons, List.not_mem_nil, or_false]
          omega
        · rintro p (hx | hx)
          · have := hpb p hx
            omega
          · omega
  | xfer f t amt key =>
    have : (step s (.xfer f t amt key)).2.accts = s.accts ∧
        (step s (.xfer f t amt key)).2.nextPtr = s.nextPtr ∧
        s.nextId ≤ (step s (.xfer f t amt key)).2.nextId := by
      simp only [step, transfer]
      split
      · exact ⟨rfl, rfl, le_refl _⟩
      · split
        · exact ⟨rfl, rfl, le_refl _⟩
        · split
          · exact ⟨rfl, rfl, le_refl _⟩
          · split
            · exact ⟨rfl, rfl, le_refl _⟩
            · split
              · exact ⟨rfl, rfl, le_refl _⟩
              · split
                · exact ⟨rfl, rfl, le_refl _⟩
                · exact ⟨rfl, rfl, Nat.le_succ _⟩
    refine ⟨?_, ?_, ?_, ?_⟩ <;> simp only [acctPtrs, this.1]
    · exact hk
    · intro k hx
      have := hkb k hx
      omega
    · exact hp
    · intro p hx
      rw [this.2.1]
      exact hpb p hx
  | getAcct id =>
    have : (step s (.getAcct id)).2.accts = s.accts ∧
        (step s (.getAcct id)).2.nextId = s.nextId ∧
        s.nextPtr ≤ (step s (.getAcct id)).2.nextPtr := by
      simp only [step, getAccount]
      split
      · exact ⟨rfl, rfl, le_refl _⟩
      · exact ⟨rfl, rfl, Nat.le_succ _⟩
    refine ⟨?_, ?_, ?_, ?_⟩ <;> simp only [acctPtrs, this.1]
    · exact hk
    · intro k hx
      rw [this.2.1]
      exact hkb k hx
    · exact hp
    · intro p hx
      have := hpb p hx
      omega
  | getBal id c =>
    have : (step s (.getBal id c)).2 = s := by
      simp only [step, getBalance]
      split <;> rfl
    rw [this]
    exact ⟨hk, hkb, hp, hpb⟩
  | list lim aft =>
    have : (step s (.list lim aft)).2 = s := rfl
    rw [this]
    exact ⟨hk, hkb, hp, hpb⟩

theorem wf_run (ops : List Op) (s : LState) (hwf : WF s) : WF (run ops s).2 := by
  induction ops generalizing s with
  | nil => exact hwf
  | cons op rest ih => exact ih _ (wf_step s op hwf)

theorem wf_initState : WF initState := by decide

theorem wf_runState (ops : List Op) : WF (runState ops) :=
  wf_run ops initState wf_initState

/-- The seed amount in currency `c` that an operation contributes: a
`CreateAccount` whose validation succeeds contributes its seed, every other
operation contributes nothing.  (`CreateAccount` validation is stateless, so
this is a function of the operation alone.) -/
def seedOf (c : String) : Op → Int
  | .create m => if m.currency ≠ "" ∧ ¬ m.amount < 0 ∧ m.currency = c then m.amount else 0
  | _ => 0

/-- Total seed supplied in currency `c` by the successful account creations of
an operation sequence. -/
def seedTotal (c : String) (ops : List Op) : Int := (ops.map (seedOf c)).sum

theorem sumBalAux_append (heap : List (Nat × List (String × Int)))
    (l1 l2 : List (Nat × Account)) (c : String) :
    sumBalAux heap (l1 ++ l2) c = sumBalAux heap l1 c + sumBalAux heap l2 c := by
  simp [sumBalAux]

theorem sumBal_createAccount (s : LState) (hwf : WF s) (m : Money) (c : String) :
    sumBal (createAccount s m).2 c = sumBal s c + seedOf c (.create m) := by
  by_cases hc : m.currency = ""
  · simp [createAccount, seedOf, hc]
  · by_cases ha : m.amount < 0
    · simp [createAccount, seedOf, hc, ha]
    · have hacc := createAccount_accts_of_wf hwf m hc ha
      have hheap : (createAccount s m).2.heap =
          aset s.heap s.nextPtr [(m.currency, m.amount)] := by
        simp [createAccount, hc, ha]
      have hfresh : s.nextPtr ∉ s.accts.map (fun e => e.2.balPtr) := by
        intro hmem
        have := hwf.2.2.2 s.nextPtr hmem
        omega
      have hold : sumBalAux (aset s.heap s.nextPtr [(m.currency, m.amount)]) s.accts c =
          sumBalAux s.heap s.accts c := sumBalAux_aset_not_mem _ c hfresh
      have hnew : sumBalAux (aset s.heap s.nextPtr [(m.currency, m.amount)])
          [(s.nextId, { id := s.nextId, createdAt := s.clock, balPtr := s.nextPtr })] c =
          (if m.currency = c then m.amount else 0) := by
        simp only [sumBalAux, List.map_cons, List.map_nil, List.sum_cons, List.sum_nil]
        rw [alookup_aset_self]
        by_cases hmc : m.currency = c <;> simp [balGet, alookup, hmc]
      show sumBalAux (createAccount s m).2.heap (createAccount s m).2.accts c = _
      rw [hacc, hheap, sumBalAux_append, hold, hnew]
      simp [sumBal, seedOf, hc, ha]

theorem sumBalAux_applyTransfer (heap : List (Nat × List (String × Int)))
    (accts : List (Nat × Account)) (hnd : (accts.map (fun e => e.2.balPtr)).Nodup)
    {fk tk : Nat} {fa ta : Account} (hf : (fk, fa) ∈ accts) (ht : (tk, ta) ∈ accts)
    (cur : String) (a : Int) (c : String) :
    sumBalAux (applyTransfer heap fa.balPtr ta.balPtr cur a) accts c ≡
      sumBalAux heap accts c [ZMOD (2 ^ 64)] := by
  simp only [applyTransfer]
  set FB := (alookup heap fa.balPtr).getD [] with hFB
  set v1 := balSet FB cur (wrap64 (balGet FB cur - a)) with hv1
  set heap1 := aset heap fa.balPtr v1 with hh1
  set TB := (alookup heap1 ta.balPtr).getD [] with hTB
  set v2 := balSet TB cur (wrap64 (balGet TB cur + a)) with hv2
  have e1 := @sumBalAux_aset_mem heap accts fa.balPtr v1 c hnd fk fa hf rfl
  have e2 := @sumBalAux_aset_mem heap1 accts ta.balPtr v2 c hnd tk ta ht rfl
  rw [← hFB] at e1
  rw [← hTB] at e2
  rw [e2, hh1, e1]
  by_cases hcur : cur = c
  · subst hcur
    rw [hv1, balGet_balSet_self, hv2, balGet_balSet_self]
    have m1 := (wrap64_modEq (balGet FB cur - a)).sub_right (balGet FB cur)
    have m2 := (wrap64_modEq (balGet TB cur + a)).sub_right (balGet TB cur)
    have step1 := ((Int.ModEq.refl (sumBalAux heap accts cur)).add m1).add m2
    refine step1.trans ?_
    have heq : sumBalAux heap accts cur + (balGet FB cur - a - balGet FB cur) +
        (balGet TB cur + a - balGet TB cur) = sumBalAux heap accts cur := by ring
    rw [heq]
  · rw [hv1, balGet_balSet_ne _ _ hcur, hv2, balGet_balSet_ne _ _ hcur]
    have heq : sumBalAux heap accts c + (balGet FB c - balGet FB c) +
        (balGet TB c - balGet TB c) = sumBalAux heap accts c := by ring
    rw [heq]

theorem transfer_not_pos (s : LState) (f t : Nat) (amt : Money) (key : String)
    (h : ¬ amt.isPositive) : transfer s f t amt key = (.error .invalidAmount, s) := by
  simp [transfer, h]

theorem transfer_empty_currency (s : LState) (f t : Nat) (amt : Money) (key : String)
    (hp : amt.isPositive) (hc : amt.currency = "") :
    transfer s f t amt key = (.error .invalidCurrency, s) := by
  simp [transfer, hp, hc]

theorem transfer_idem_hit (s : LState) (f t : Nat) (amt : Money) (key : String)
    {tx : Transaction} (hp : amt.isPositive) (hc : amt.currency ≠ "")
    (hk : key ≠ "") (hfound : alookup s.idem key = some tx) :
    transfer s f t amt key = (.ok tx, s) := by
  simp [transfer, hp, hc, hk, hfound]

theorem transfer_from_missing (s : LState) (f t : Nat) (amt : Money) (key : String)
    (hp : amt.isPositive) (hc : amt.currency ≠ "")
    (hmiss : (if key ≠ "" then alookup s.idem key else none) = none)
    (hf : alookup s.accts f = none) :
    transfer s f t amt key = (.error .notFound, s) := by
  simp [transfer, hp, hc, hmiss, hf]

theorem transfer_to_missing (s : LState) (f t : Nat) (amt : Money) (key : String)
    {fromAcc : Account} (hp : amt.isPositive) (hc : amt.currency ≠ "")
    (hmiss : (if key ≠ "" then alookup s.idem key else none) = none)
    (hf : alookup s.accts f = some fromAcc) (ht : alookup s.accts t = none) :
    transfer s f t amt key = (.error .notFound, s) := by
  simp [transfer, hp, hc, hmiss, hf, ht]

theorem transfer_insufficient (s : LState) (f t : Nat) (amt : Money) (key : String)
    {fromAcc toAcc : Account} (hp : amt.isPositive) (hc : amt.currency ≠ "")
    (hmiss : (if key ≠ "" then alookup s.idem key else none) = none)
    (hf : alookup s.accts f = some fromAcc) (ht : alookup s.accts t = some toAcc)
    (hins : balGet (heapGet s fromAcc.balPtr) amt.currency < amt.amount) :
    transfer s f t amt key = (.error .insufficientFunds, s) := by
  simp [transfer, hp, hc, hmiss, hf, ht, hins]

/-- The transaction record built by a committing transfer. -/
def commitTx (s : LState) (fromID toID : Nat) (amt : Money) (idemKey : String) : Transaction :=
  { id := s.nextId, createdAt := s.clock, fromAccountID := fromID, toAccountID := toID,
    currency := amt.currency, amount := amt.amount, idempotencyKey := idemKey,
    sequence := s.seq + 1 }

/-- The state a committing transfer leaves behind. -/
def commitState (s : LState) (fromAcc toAcc : Account) (fromID toID : Nat) (amt : Money)
    (idemKey : String) : LState :=
  { s with
    heap := applyTransfer s.heap fromAcc.balPtr toAcc.balPtr amt.currency amt.amount,
    seq := s.seq + 1,
    txs := s.txs ++ [commitTx s fromID toID amt idemKey],
    idem := if idemKey ≠ "" then aset s.idem idemKey (commitTx s fromID toID amt idemKey)
      else s.idem,
    nextId := s.nextId + 1,
    clock := s.clock + 1 }

theorem transfer_commit (s : LState) (f t : Nat) (amt : Money) (key : String)
    {fromAcc toAcc : Account} (hp : amt.isPositive) (hc : amt.currency ≠ "")
    (hmiss : (if key ≠ "" then alookup s.idem key else none) = none)
    (hf : alookup s.accts f = some fromAcc) (ht : alookup s.accts t = some toAcc)
    (hins : ¬ balGet (heapGet s fromAcc.balPtr) amt.currency < amt.amount) :
    transfer s f t amt key =
      (.ok (commitTx s f t amt key), commitState s fromAcc toAcc f t amt key) := by
  simp [transfer, hp, hc, hmiss, hf, ht, hins, commitTx, commitState]

theorem sumBal_transfer (s : LState) (hwf : WF s) (f t : Nat) (amt : Money) (key : String)
    (c : String) : sumBal (transfer s f t amt key).2 c ≡ sumBal s c [ZMOD (2 ^ 64)] := by
  have hnd : (s.accts.map (fun e => e.2.balPtr)).Nodup := hwf.2.2.1
  by_cases hp : amt.isPositive
  case neg =>
    rw [transfer_not_pos s f t amt key hp]
  case pos =>
  by_cases hc : amt.currency = ""
  case pos =>
    rw [transfer_empty_currency s f t amt key hp hc]
  case neg =>
  cases hmatch : (if key ≠ "" then alookup s.idem key else none) with
  | some tx =>
    have hk : key ≠ "" := by
      intro hempty
      rw [if_neg (by simp [hempty])] at hmatch
      exact Option.noConfusion hmatch
    rw [if_pos hk] at hmatch
    rw [transfer_idem_hit s f t amt key hp hc hk hmatch]
  | none =>
  cases hf : alookup s.accts f with
  | none =>
    rw [transfer_from_missing s f t amt key hp hc hmatch hf]
  | some fromAcc =>
  cases ht : alookup s.accts t with
  | none =>
    rw [transfer_to_missing s f t amt key hp hc hmatch hf ht]
  | some toAcc =>
  by_cases hins : balGet (heapGet s fromAcc.balPtr) amt.currency < amt.amount
  case pos =>
    rw [transfer_insufficient s f t amt key hp hc hmatch hf ht hins]
  case neg =>
  rw [transfer_commit s f t amt key hp hc hmatch hf ht hins]
  show sumBalAux (applyTransfer s.heap fromAcc.balPtr toAcc.balPtr amt.currency amt.amount)
    s.accts c ≡ sumBalAux s.heap s.accts c [ZMOD (2 ^ 64)]
  exact sumBalAux_applyTransfer s.heap s.accts hnd (alookup_mem hf) (alookup_mem ht)
    amt.currency amt.amount c


theorem sumBal_step (s : LState) (op : Op) (hwf : WF s) (c : String) :
    sumBal (step s op).2 c ≡ sumBal s c + seedOf c op [ZMOD (2 ^ 64)] := by
  cases op with
  | create m =>
    rw [show (step s (.create m)).2 = (createAccount s m).2 from rfl,
      sumBal_createAccount s hwf m c]
  | xfer f t amt key =>
    have h := sumBal_transfer s hwf f t amt key c
    simpa [seedOf] using h
  | getAcct id =>
    show sumBal (getAccount s id).2 c ≡ _ [ZMOD _]
    unfold getAccount
    split
    · simp only [seedOf, add_zero]
      exact Int.ModEq.refl _
    next acc hl =>
      have hfresh : s.nextPtr ∉ s.accts.map (fun e => e.2.balPtr) := by
        intro hmem
        have := hwf.2.2.2 s.nextPtr hmem
        omega
      show sumBalAux (aset s.heap s.nextPtr (heapGet s acc.balPtr)) s.accts c ≡ _ [ZMOD _]
      rw [sumBalAux_aset_not_mem _ c hfresh]
      simp only [seedOf, add_zero]
      exact Int.ModEq.refl _
  | getBal id cc =>
    have hst : (step s (.getBal id cc)).2 = s := by
      simp only [step, getBalance]
      split <;> rfl
    rw [hst]
    simp only [seedOf, add_zero]
    exact Int.ModEq.refl _
  | list lim aft =>
    show sumBal s c ≡ _ [ZMOD _]
    simp only [seedOf, add_zero]
    exact Int.ModEq.refl _

theorem sumBal_run (ops : List Op) (s : LState) (hwf : WF s) (c : String) :
    sumBal (run ops s).2 c ≡ sumBal s c + seedTotal c ops [ZMOD (2 ^ 64)] := by
  induction ops generalizing s with
  | nil => simp [run, seedTotal]
  | cons op rest ih =>
    have h1 := sumBal_step s op hwf c
    have h2 := ih (step s op).2 (wf_step s op hwf)
    show sumBal (run rest (step s op).2).2 c ≡ _ [ZMOD _]
    refine h2.trans ?_
    have h3 := h1.add_right (seedTotal c rest)
    refine h3.trans ?_
    have heq : sumBal s c + seedOf c op + seedTotal c rest =
        sumBal s c + seedTotal c (op :: rest) := by
      simp [seedTotal]
      ring
    rw [heq]

theorem transfer_cases (s : LState) (f t : Nat) (amt : Money) (key : String) :
    (transfer s f t amt key).2 = s ∨
    (∃ fromAcc toAcc : Account,
      amt.isPositive = true ∧ amt.currency ≠ "" ∧
      (if key ≠ "" then alookup s.idem key else none) = none ∧
      alookup s.accts f = some fromAcc ∧ alookup s.accts t = some toAcc ∧
      ¬ balGet (heapGet s fromAcc.balPtr) amt.currency < amt.amount ∧
      transfer s f t amt key =
        (.ok (commitTx s f t amt key), commitState s fromAcc toAcc f t amt key)) := by
  by_cases hp : amt.isPositive
  case neg =>
    left
    rw [transfer_not_pos s f t amt key hp]
  case pos =>
  by_cases hc : amt.currency = ""
  case pos =>
    left
    rw [transfer_empty_currency s f t amt key hp hc]
  case neg =>
  cases hmatch : (if key ≠ "" then alookup s.idem key else none) with
  | some tx =>
    left
    have hk : key ≠ "" := by
      intro hempty
      rw [if_neg (by simp [hempty])] at hmatch
      exact Option.noConfusion hmatch
    rw [if_pos hk] at hmatch
    rw [transfer_idem_hit s f t amt key hp hc hk hmatch]
  | none =>
  cases hf : alookup s.accts f with
  | none =>
    left
    rw [transfer_from_missing s f t amt key hp hc hmatch hf]
  | some fromAcc =>
  cases ht : alookup s.accts t with
  | none =>
    left
    rw [transfer_to_missing s f t amt key hp hc hmatch hf ht]
  | some toAcc =>
  by_cases hins : balGet (heapGet s fromAcc.balPtr) amt.currency < amt.amount
  case pos =>
    left
    rw [transfer_insufficient s f t amt key hp hc hmatch hf ht hins]
  case neg =>
    right
    exact ⟨fromAcc, toAcc, hp, hc, rfl, rfl, rfl, hins,
      transfer_commit s f t amt key hp hc hmatch hf ht hins⟩

theorem createAccount_txs_seq (s : LState) (m : Money) :
    (createAccount s m).2.txs = s.txs ∧ (createAccount s m).2.seq = s.seq := by
  by_cases hc : m.currency = "" <;> by_cases ha : m.amount < 0 <;>
    simp [createAccount, hc, ha]

theorem getAccount_txs_seq (s : LState) (id : Nat) :
    (getAccount s id).2.txs = s.txs ∧ (getAccount s id).2.seq = s.seq := by
  unfold getAccount
  cases alookup s.accts id <;> simp

theorem getBalance_state (s : LState) (id : Nat) (c : String) :
    (getBalance s id c).2 = s := by
  unfold getBalance
  cases alookup s.accts id <;> rfl

theorem listTransactions_state (s : LState) (lim : Int) (aft : Nat) :
    (listTransactions s lim aft).2 = s := rfl

theorem seqInv_step (s : LState) (op : Op)
    (h1 : s.seq = s.txs.length)
    (h2 : s.txs.map (fun tx => tx.sequence) = List.range' 1 s.txs.length) :
    (step s op).2.seq = (step s op).2.txs.length ∧
    (step s op).2.txs.map (fun tx => tx.sequence) =
      List.range' 1 (step s op).2.txs.length := by
  cases op with
  | create m =>
    have h := createAccount_txs_seq s m
    have hstep : (step s (.create m)).2 = (createAccount s m).2 := rfl
    rw [hstep, h.1, h.2]
    exact ⟨h1, h2⟩
  | xfer f t amt key =>
    have hstep : (step s (.xfer f t amt key)).2 = (transfer s f t amt key).2 := rfl
    rcases transfer_cases s f t amt key with hs | ⟨fa, ta, hp, hc, hmiss, hf, ht, hins, heq⟩
    · rw [hstep, hs]
      exact ⟨h1, h2⟩
    · rw [hstep, heq]
      constructor
      · show s.seq + 1 = (s.txs ++ [commitTx s f t amt key]).length
        simp [h1]
      · show (s.txs ++ [commitTx s f t amt key]).map (fun tx => tx.sequence) =
          List.range' 1 (s.txs ++ [commitTx s f t amt key]).length
        simp only [List.map_append, List.map_cons, List.map_nil, List.length_append,
          List.length_cons, List.length_nil, Nat.zero_add]
        rw [h2, List.range'_1_concat]
        simp [commitTx, h1, Nat.add_comm]
  | getAcct id =>
    have h := getAccount_txs_seq s id
    have hstep : (step s (.getAcct id)).2 = (getAccount s id).2 := rfl
    rw [hstep, h.1, h.2]
    exact ⟨h1, h2⟩
  | getBal id c =>
    have hstep : (step s (.getBal id c)).2 = (getBalance s id c).2 := rfl
    rw [hstep, getBalance_state]
    exact ⟨h1, h2⟩
  | list lim aft =>
    exact ⟨h1, h2⟩

theorem seqInv_run (ops : List Op) (s : LState)
    (h1 : s.seq = s.txs.length)
    (h2 : s.txs.map (fun tx => tx.sequence) = List.range' 1 s.txs.length) :
    (run ops s).2.seq = (run ops s).2.txs.length ∧
    (run ops s).2.txs.map (fun tx => tx.sequence) =
      List.range' 1 (run ops s).2.txs.length := by
  induction ops generalizing s with
  | nil => exact ⟨h1, h2⟩
  | cons op rest ih =>
    have h := seqInv_step s op h1 h2
    exact ih (step s op).2 h.1 h.2

theorem transfer_ok_idem (s : LState) (f t : Nat) (amt : Money) (key : String)
    (tx : Transaction) (s1 : LState) (hk : key ≠ "")
    (h : transfer s f t amt key = (.ok tx, s1)) :
    alookup s1.idem key = some tx := by
  by_cases hp : amt.isPositive
  case neg =>
    rw [transfer_not_pos s f t amt key hp] at h
    simp at h
  case pos =>
  by_cases hc : amt.currency = ""
  case pos =>
    rw [transfer_empty_currency s f t amt key hp hc] at h
    simp at h
  case neg =>
  cases hmatch : (if key ≠ "" then alookup s.idem key else none) with
  | some cached =>
    rw [if_pos hk] at hmatch
    rw [transfer_idem_hit s f t amt key hp hc hk hmatch] at h
    simp only [Prod.mk.injEq, Except.ok.injEq] at h
    rw [← h.2, hmatch, h.1]
  | none =>
  cases hf : alookup s.accts f with
  | none =>
    rw [transfer_from_missing s f t amt key hp hc hmatch hf] at h
    simp at h
  | some fromAcc =>
  cases ht : alookup s.accts t with
  | none =>
    rw [transfer_to_missing s f t amt key hp hc hmatch hf ht] at h
    simp at h
  | some toAcc =>
  by_cases hins : balGet (heapGet s fromAcc.balPtr) amt.currency < amt.amount
  case pos =>
    rw [transfer_insufficient s f t amt key hp hc hmatch hf ht hins] at h
    simp at h
  case neg =>
    rw [transfer_commit s f t amt key hp hc hmatch hf ht hins] at h
    simp only [Prod.mk.injEq, Except.ok.injEq] at h
    rw [← h.2, ← h.1]
    show alookup (if key ≠ "" then aset s.idem key (commitTx s f t amt key) else s.idem)
      key = some (commitTx s f t amt key)
    rw [if_pos hk]
    exact alookup_aset_self _ _ _

/-- Claim C1 (amended): money conservation modulo `2^64`.  For every sequence
of operations on a fresh in-memory backend and every currency `c`, the sum of
all stored account balances in `c` is congruent, modulo `2^64`, to the total
of the seed balances supplied by the successful `CreateAccount` calls.  (The
exact-sum form of the claim fails because Go `int64` addition wraps; see the
counterexample.) -/
theorem claim_C1_money_conservation_mod (ops : List Op) (c : String) :
    sumBal (runState ops) c ≡ seedTotal c ops [ZMOD (2 ^ 64)] := by
  have h := sumBal_run ops initState wf_initState c
  have h0 : sumBal initState c = 0 := rfl
  rw [h0, zero_add] at h
  exact h

/-- The operation sequence whose transfer overflows an `int64` balance. -/
def overflowOps : List Op :=
  [.create { currency := "QZN", amount := 9223372036854775807 },
   .create { currency := "QZN", amount := 9223372036854775807 },
   .xfer 0 1 { currency := "QZN", amount := 9223372036854775807 } ""]

/-- Counterexample to claim C1 as stated: seed two accounts with the maximum
`int64` amount and transfer the whole first balance; the receiving balance
wraps to a negative value and the exact integer sum of balances (here `-2`)
no longer equals the sum of the seeds (`2^64 - 2`). -/
theorem claim_C1_counterexample :
    sumBal (runState overflowOps) "QZN" ≠ seedTotal "QZN" overflowOps := by
  decide

/-- Claim C4: sequence monotonicity.  After any operation sequence on a fresh
in-memory backend the committed transactions carry sequences `1, 2, …, n` in
commit order: the sequence list equals `range' 1 n`, is strictly increasing
(every committed transfer's sequence exceeds all earlier ones), has no
duplicates, and the first committed transfer has sequence 1. -/
theorem claim_C4_sequence_monotone (ops : List Op) :
    (runState ops).txs.map (fun tx => tx.sequence) =
        List.range' 1 (runState ops).txs.length ∧
    List.Pairwise (· < ·) ((runState ops).txs.map (fun tx => tx.sequence)) ∧
    ((runState ops).txs.map (fun tx => tx.sequence)).Nodup ∧
    ((runState ops).txs = [] ∨
      ((runState ops).txs.map (fun tx => tx.sequence)).head? = some 1) := by
  have h := seqInv_run ops initState rfl rfl
  unfold runState
  refine ⟨h.2, ?_, ?_, ?_⟩
  · rw [h.2]
    exact List.pairwise_lt_range' 1 _ 1 (by omega)
  · rw [h.2]
    exact List.nodup_range' 1 _
  · cases htx : (run ops initState).2.txs with
    | nil =>
      left
      rfl
    | cons a l =>
      right
      have h2 := h.2
      rw [htx] at h2
      rw [h2]
      rfl

/-- Claim C2 (amended): idempotent replay.  If a `Transfer` carrying a
non-empty idempotency key returns a transaction, then the next `Transfer`
with the same key — with any payload that passes the stateless validation
(positive amount, non-empty currency) — returns exactly that transaction
record and leaves the entire ledger state unchanged.  (The unamended claim,
which allowed arbitrary payloads in the second call, fails because the
amount/currency validation runs before the idempotency lookup; see the
counterexample.) -/
theorem claim_C2_idempotent_replay (s : LState) (f1 t1 f2 t2 : Nat)
    (amt1 amt2 : Money) (key : String) (tx : Transaction) (s1 : LState)
    (hk : key ≠ "")
    (h1 : transfer s f1 t1 amt1 key = (.ok tx, s1))
    (hp2 : amt2.isPositive) (hc2 : amt2.currency ≠ "") :
    transfer s1 f2 t2 amt2 key = (.ok tx, s1) :=
  transfer_idem_hit s1 f2 t2 amt2 key hp2 hc2 hk
    (transfer_ok_idem s f1 t1 amt1 key tx s1 hk h1)

/-- State after creating account 0 with 100 QZN and account 1 with 0 QZN. -/
def c2State0 : LState :=
  runState [.create { currency := "QZN", amount := 100 },
            .create { currency := "QZN", amount := 0 }]

/-- The first keyed transfer of the C2 scenario. -/
def c2First : Except LErr Transaction × LState :=
  transfer c2State0 0 1 { currency := "QZN", amount := 5 } "k"

/-- The transaction record the first C2 transfer commits. -/
def c2Tx : Transaction :=
  { id := 2, createdAt := 2, fromAccountID := 0, toAccountID := 1,
    currency := "QZN", amount := 5, idempotencyKey := "k", sequence := 1 }

theorem claim_C2_idempotent_replay_witness :
    transfer c2First.2 1 0 { currency := "QZN", amount := 7 } "k" =
      (.ok c2Tx, c2First.2) :=
  claim_C2_idempotent_replay c2State0 0 1 1 0 { currency := "QZN", amount := 5 }
    { currency := "QZN", amount := 7 } "k" c2Tx
    c2First.2 (by decide) (by decide) (by decide) (by decide)

/-- Counterexample to claim C2 as stated: after a successful keyed transfer,
a second call with the same key but amount 0 fails with `InvalidAmount`
instead of returning the first call's record — the payload validation runs
before the idempotency lookup. -/
theorem claim_C2_counterexample :
    c2First.1 = .ok c2Tx ∧
    transfer c2First.2 0 1 { currency := "QZN", amount := 0 } "k" =
      (.error .invalidAmount, c2First.2) := by
  decide

/-- Claim C3 (amended): insufficient funds and error atomicity.  When the
amount is positive, the currency non-empty, the idempotency cache has no
entry for the key, both accounts exist, and the from-account's balance in
the transfer currency is below the amount, `Transfer` fails with
`InsufficientFunds`; and every erroring `Transfer` leaves the entire state
(balances, transactions, sequence counter, idempotency cache) unchanged.
(The unamended claim misses that a missing to-account yields `NotFound` and
that a cached idempotency key short-circuits the balance check; see the
counterexample.) -/
theorem claim_C3_insufficient_and_atomic :
    (∀ (s : LState) (f t : Nat) (amt : Money) (key : String) (fromAcc toAcc : Account),
      amt.isPositive = true → amt.currency ≠ "" →
      (if key ≠ "" then alookup s.idem key else none) = none →
      alookup s.accts f = some fromAcc → alookup s.accts t = some toAcc →
      balGet (heapGet s fromAcc.balPtr) amt.currency < amt.amount →
      transfer s f t amt key = (.error .insufficientFunds, s)) ∧
    (∀ (s : LState) (f t : Nat) (amt : Money) (key : String) (e : LErr),
      (transfer s f t amt key).1 = .error e → (transfer s f t amt key).2 = s) := by
  constructor
  · intro s f t amt key fromAcc toAcc hp hc hmiss hf ht hins
    exact transfer_insufficient s f t amt key hp hc hmiss hf ht hins
  · intro s f t amt key e herr
    rcases transfer_cases s f t amt key with hs | ⟨fa, ta, hp, hc, hmiss, hf, ht, hins, heq⟩
    · exact hs
    · rw [heq] at herr
      simp at herr

/-- State after creating account 0 with 100 QZN and account 1 with 0 QZN,
used by the C3 scenario. -/
def c3State : LState :=
  runState [.create { currency := "QZN", amount := 100 },
            .create { currency := "QZN", amount := 0 }]

theorem claim_C3_witness :
    transfer c3State 0 1 { currency := "QZN", amount := 200 } "" =
      (.error .insufficientFunds, c3State) ∧
    (transfer c3State 0 99 { currency := "QZN", amount := 5 } "").2 = c3State :=
  ⟨claim_C3_insufficient_and_atomic.1 c3State 0 1 { currency := "QZN", amount := 200 } ""
      { id := 0, createdAt := 0, balPtr := 0 } { id := 1, createdAt := 1, balPtr := 1 }
      (by decide) (by decide) (by decide) (by decide) (by decide) (by decide),
    claim_C3_insufficient_and_atomic.2 c3State 0 99 { currency := "QZN", amount := 5 } ""
      .notFound (by decide)⟩

/-- State with a single account seeded with 0 QZN. -/
def c3Small : LState := runState [.create { currency := "QZN", amount := 0 }]

/-- Counterexample to claim C3 as stated: the from-account exists with balance
0 < 5 in QZN, yet the transfer to a non-existent account fails with
`NotFound`, not `InsufficientFunds`. -/
theorem claim_C3_counterexample :
    alookup c3Small.accts 0 = some { id := 0, createdAt := 0, balPtr := 0 } ∧
    balGet (heapGet c3Small 0) "QZN" < 5 ∧
    transfer c3Small 0 7 { currency := "QZN", amount := 5 } "" =
      (.error .notFound, c3Small) ∧
    LErr.notFound ≠ LErr.insufficientFunds := by
  decide

/-- Claim C7 (amended): CreateAccount validation.  `CreateAccount` fails with
`InvalidCurrency` exactly when the seed currency is empty, fails with
`InvalidAmount` exactly when the currency is non-empty and the amount
negative, and on any failure creates no account (the state is unchanged).
(The repository performs no `> 8` characters length check on this path; see
the counterexample.) -/
theorem claim_C7_create_validation (s : LState) (m : Money) :
    ((createAccount s m).1 = .error .invalidCurrency ↔ m.currency = "") ∧
    ((createAccount s m).1 = .error .invalidAmount ↔ (m.currency ≠ "" ∧ m.amount < 0)) ∧
    (∀ e : LErr, (createAccount s m).1 = .error e → (createAccount s m).2 = s) := by
  by_cases hc : m.currency = ""
  · simp [createAccount, hc]
  · by_cases ha : m.amount < 0 <;> simp [createAccount, hc, ha]

theorem claim_C7_witness :
    (createAccount initState { currency := "", amount := 5 }).1 =
      .error .invalidCurrency ∧
    (createAccount initState { currency := "QZN", amount := -1 }).2 = initState :=
  ⟨(claim_C7_create_validation initState { currency := "", amount := 5 }).1.mpr rfl,
    (claim_C7_create_validation initState { currency := "QZN", amount := -1 }).2.2
      .invalidAmount (by decide)⟩

/-- Counterexample to claim C7 as stated: a nine-character currency code is
accepted — `CreateAccount` returns the new account instead of failing with
`InvalidCurrency`. -/
theorem claim_C7_counterexample :
    ("ABCDEFGHI" : String).length > 8 ∧
    (createAccount initState { currency := "ABCDEFGHI", amount := 0 }).1 =
      .ok { id := 0, createdAt := 0, balPtr := 0 } := by
  decide

theorem mem_map_aset {κ α β : Type} [DecidableEq κ] {l : List (κ × α)} {k : κ} {v : α}
    {f : κ × α → β} {x : β} (hx : x ∈ (aset l k v).map f) :
    x ∈ l.map f ∨ x = f (k, v) := by
  induction l with
  | nil =>
    right
    simpa [aset] using hx
  | cons e rest ih =>
    by_cases he : e.1 = k
    · rw [show aset (e :: rest) k v = (e.1, v) :: rest from by simp [aset, he],
        List.map_cons] at hx
      rcases List.mem_cons.mp hx with hx | hx
      · right
        rw [hx, he]
      · left
        rw [List.map_cons]
        exact List.mem_cons_of_mem _ hx
    · rw [show aset (e :: rest) k v = e :: aset rest k v from by simp [aset, he],
        List.map_cons] at hx
      rcases List.mem_cons.mp hx with hx | hx
      · left
        rw [List.map_cons, hx]
        exact List.mem_cons_self _ _
      · rcases ih hx with hmem | heq
        · left
          rw [List.map_cons]
          exact List.mem_cons_of_mem _ hmem
        · right
          exact heq

theorem alookup_aset_congr {κ α : Type} [DecidableEq κ] {l1 l2 : List (κ × α)} {p : κ}
    (h : ∀ q, q ≠ p → alookup l1 q = alookup l2 q) (k : κ) (v : α) :
    ∀ q, q ≠ p → alookup (aset l1 k v) q = alookup (aset l2 k v) q := by
  intro q hq
  by_cases hqk : k = q
  · subst hqk
    rw [alookup_aset_self, alookup_aset_self]
  · rw [alookup_aset_ne _ _ hqk, alookup_aset_ne _ _ hqk]
    exact h q hq

theorem applyTransfer_congr {h1 h2 : List (Nat × List (String × Int))} {p : Nat}
    (hagree : ∀ q, q ≠ p → alookup h1 q = alookup h2 q)
    {fp tp : Nat} (hfp : fp ≠ p) (htp : tp ≠ p) (cur : String) (a : Int) :
    ∀ q, q ≠ p →
      alookup (applyTransfer h1 fp tp cur a) q = alookup (applyTransfer h2 fp tp cur a) q := by
  intro q hq
  simp only [applyTransfer]
  rw [hagree fp hfp]
  have step1 := alookup_aset_congr hagree fp
    (balSet ((alookup h2 fp).getD []) cur
      (wrap64 (balGet ((alookup h2 fp).getD []) cur - a)))
  rw [step1 tp htp]
  exact alookup_aset_congr step1 tp _ q hq

theorem createAccount_err_currency (s : LState) (m : Money) (hc : m.currency = "") :
    createAccount s m = (.error .invalidCurrency, s) := by
  simp [createAccount, hc]

theorem createAccount_err_amount (s : LState) (m : Money) (hc : ¬ m.currency = "")
    (hamt : m.amount < 0) : createAccount s m = (.error .invalidAmount, s) := by
  simp [createAccount, hc, hamt]

theorem createAccount_ok (s : LState) (m : Money) (hc : ¬ m.currency = "")
    (hamt : ¬ m.amount < 0) :
    createAccount s m =
      (.ok { id := s.nextId, createdAt := s.clock, balPtr := s.nextPtr },
        { s with
          accts := aset s.accts s.nextId
            { id := s.nextId, createdAt := s.clock, balPtr := s.nextPtr },
          heap := aset s.heap s.nextPtr [(m.currency, m.amount)],
          nextPtr := s.nextPtr + 1, nextId := s.nextId + 1, clock := s.clock + 1 }) := by
  simp [createAccount, hc, hamt]

theorem getAccount_missing (s : LState) (id : Nat) (hl : alookup s.accts id = none) :
    getAccount s id = (.error .notFound, s) := by
  unfold getAccount
  rw [hl]

theorem getAccount_found (s : LState) (id : Nat) {acc : Account}
    (hl : alookup s.accts id = some acc) :
    getAccount s id =
      (.ok { acc with balPtr := s.nextPtr },
        { s with
          heap := aset s.heap s.nextPtr (heapGet s acc.balPtr),
          nextPtr := s.nextPtr + 1 }) := by
  unfold getAccount
  rw [hl]

theorem getBalance_missing (s : LState) (id : Nat) (c : String)
    (hl : alookup s.accts id = none) : getBalance s id c = (.error .notFound, s) := by
  unfold getBalance
  rw [hl]

theorem getBalance_found (s : LState) (id : Nat) (c : String) {acc : Account}
    (hl : alookup s.accts id = some acc) :
    getBalance s id c =
      (.ok { currency := c, amount := balGet (heapGet s acc.balPtr) c }, s) := by
  unfold getBalance
  rw [hl]

/-- Two ledger states that agree everywhere except possibly in the contents of
the single balance-heap cell `p`, which no stored account references. -/
def FrameRel (p : Nat) (sA sB : LState) : Prop :=
  sA.accts = sB.accts ∧ sA.seq = sB.seq ∧ sA.txs = sB.txs ∧ sA.idem = sB.idem ∧
  sA.nextPtr = sB.nextPtr ∧ sA.nextId = sB.nextId ∧ sA.clock = sB.clock ∧
  (∀ q, q ≠ p → alookup sA.heap q = alookup sB.heap q) ∧
  p ∉ acctPtrs sA ∧ p < sA.nextPtr

theorem step_frame (p : Nat) (sA sB : LState) (op : Op) (h : FrameRel p sA sB) :
    (step sA op).1 = (step sB op).1 ∧ FrameRel p (step sA op).2 (step sB op).2 := by
  obtain ⟨ha, hseq, htx, hid, hnp, hni, hcl, hag, hpn, hpl⟩ := h
  have hpp : p ≠ sA.nextPtr := by omega
  cases op with
  | create m =>
    by_cases hc : m.currency = ""
    · constructor
      · show Out.acct (createAccount sA m).1 = Out.acct (createAccount sB m).1
        rw [createAccount_err_currency sA m hc, createAccount_err_currency sB m hc]
      · show FrameRel p (createAccount sA m).2 (createAccount sB m).2
        rw [createAccount_err_currency sA m hc, createAccount_err_currency sB m hc]
        exact ⟨ha, hseq, htx, hid, hnp, hni, hcl, hag, hpn, hpl⟩
    · by_cases hamt : m.amount < 0
      · constructor
        · show Out.acct (createAccount sA m).1 = Out.acct (createAccount sB m).1
          rw [createAccount_err_amount sA m hc hamt, createAccount_err_amount sB m hc hamt]
        · show FrameRel p (createAccount sA m).2 (createAccount sB m).2
          rw [createAccount_err_amount sA m hc hamt, createAccount_err_amount sB m hc hamt]
          exact ⟨ha, hseq, htx, hid, hnp, hni, hcl, hag, hpn, hpl⟩
      · constructor
        · show Out.acct (createAccount sA m).1 = Out.acct (createAccount sB m).1
          rw [createAccount_ok sA m hc hamt, createAccount_ok sB m hc hamt, hni, hcl, hnp]
        · show FrameRel p (createAccount sA m).2 (createAccount sB m).2
          rw [createAccount_ok sA m hc hamt, createAccount_ok sB m hc hamt]
          refine ⟨?_, hseq, htx, hid, ?_, ?_, ?_, ?_, ?_, ?_⟩
          · show aset sA.accts sA.nextId _ = aset sB.accts sB.nextId _
            rw [ha, hni, hcl, hnp]
          · show sA.nextPtr + 1 = sB.nextPtr + 1
            omega
          · show sA.nextId + 1 = sB.nextId + 1
            omega
          · show sA.clock + 1 = sB.clock + 1
            omega
          · show ∀ q, q ≠ p → alookup (aset sA.heap sA.nextPtr _) q =
              alookup (aset sB.heap sB.nextPtr _) q
            rw [← hnp]
            exact alookup_aset_congr hag _ _
          · show p ∉ (aset sA.accts sA.nextId
              { id := sA.nextId, createdAt := sA.clock, balPtr := sA.nextPtr }).map
              (fun e => e.2.balPtr)
            intro hmem
            rcases mem_map_aset hmem with hmem | heq
            · exact hpn hmem
            · exact hpp heq
          · show p < sA.nextPtr + 1
            omega
  | xfer f t amt key =>
    have houtA : step sA (.xfer f t amt key) =
        (.tx (transfer sA f t amt key).1, (transfer sA f t amt key).2) := rfl
    have houtB : step sB (.xfer f t amt key) =
        (.tx (transfer sB f t amt key).1, (transfer sB f t amt key).2) := rfl
    rw [houtA, houtB]
    by_cases hp : amt.isPositive
    case neg =>
      rw [transfer_not_pos sA f t amt key hp, transfer_not_pos sB f t amt key hp]
      exact ⟨rfl, ha, hseq, htx, hid, hnp, hni, hcl, hag, hpn, hpl⟩
    case pos =>
    by_cases hc : amt.currency = ""
    case pos =>
      rw [transfer_empty_currency sA f t amt key hp hc,
        transfer_empty_currency sB f t amt key hp hc]
      exact ⟨rfl, ha, hseq, htx, hid, hnp, hni, hcl, hag, hpn, hpl⟩
    case neg =>
    cases hmatch : (if key ≠ "" then alookup sA.idem key else none) with
    | some cached =>
      have hmatchB : (if key ≠ "" then alookup sB.idem key else none) = some cached := by
        rw [← hid]
        exact hmatch
      have hk : key ≠ "" := by
        intro hempty
        rw [if_neg (by simp [hempty])] at hmatch
        exact Option.noConfusion hmatch
      rw [if_pos hk] at hmatch hmatchB
      rw [transfer_idem_hit sA f t amt key hp hc hk hmatch,
        transfer_idem_hit sB f t amt key hp hc hk hmatchB]
      exact ⟨rfl, ha, hseq, htx, hid, hnp, hni, hcl, hag, hpn, hpl⟩
    | none =>
    have hmatchB : (if key ≠ "" then alookup sB.idem key else none) = none := by
      rw [← hid]
      exact hmatch
    cases hf : alookup sA.accts f with
    | none =>
      have hfB : alookup sB.accts f = none := by
        rw [← ha]
        exact hf
      rw [transfer_from_missing sA f t amt key hp hc hmatch hf,
        transfer_from_missing sB f t amt key hp hc hmatchB hfB]
      exact ⟨rfl, ha, hseq, htx, hid, hnp, hni, hcl, hag, hpn, hpl⟩
    | some fromAcc =>
    have hfB : alookup sB.accts f = some fromAcc := by
      rw [← ha]
      exact hf
    cases ht : alookup sA.accts t with
    | none =>
      have htB : alookup sB.accts t = none := by
        rw [← ha]
        exact ht
      rw [transfer_to_missing sA f t amt key hp hc hmatch hf ht,
        transfer_to_missing sB f t amt key hp hc hmatchB hfB htB]
      exact ⟨rfl, ha, hseq, htx, hid, hnp, hni, hcl, hag, hpn, hpl⟩
    | some toAcc =>
    have htB : alookup sB.accts t = some toAcc := by
      rw [← ha]
      exact ht
    have hfptr : fromAcc.balPtr ≠ p := by
      intro hq
      exact hpn (hq ▸ List.mem_map.mpr ⟨(f, fromAcc), alookup_mem hf, rfl⟩)
    have htptr : toAcc.balPtr ≠ p := by
      intro hq
      exact hpn (hq ▸ List.mem_map.mpr ⟨(t, toAcc), alookup_mem ht, rfl⟩)
    have hbal : balGet (heapGet sA fromAcc.balPtr) amt.currency =
        balGet (heapGet sB fromAcc.balPtr) amt.currency := by
      unfold heapGet
      rw [hag fromAcc.balPtr hfptr]
    by_cases hins : balGet (heapGet sA fromAcc.balPtr) amt.currency < amt.amount
    case pos =>
      have hinsB : balGet (heapGet sB fromAcc.balPtr) amt.currency < amt.amount := by
        rw [← hbal]
        exact hins
      rw [transfer_insufficient sA f t amt key hp hc hmatch hf ht hins,
        transfer_insufficient sB f t amt key hp hc hmatchB hfB htB hinsB]
      exact ⟨rfl, ha, hseq, htx, hid, hnp, hni, hcl, hag, hpn, hpl⟩
    case neg =>
    have hinsB : ¬ balGet (heapGet sB fromAcc.balPtr) amt.currency < amt.amount := by
      rw [← hbal]
      exact hins
    rw [transfer_commit sA f t amt key hp hc hmatch hf ht hins,
      transfer_commit sB f t amt key hp hc hmatchB hfB htB hinsB]
    have hct : commitTx sA f t amt key = commitTx sB f t amt key := by
      simp [commitTx, hni, hcl, hseq]
    refine ⟨by rw [hct], ?_, ?_, ?_, ?_, ?_, ?_, ?_, ?_, ?_, ?_⟩
    · show sA.accts = sB.accts
      exact ha
    · show sA.seq + 1 = sB.seq + 1
      omega
    · show sA.txs ++ [commitTx sA f t amt key] = sB.txs ++ [commitTx sB f t amt key]
      rw [htx, hct]
    · show (if key ≠ "" then aset sA.idem key (commitTx sA f t amt key) else sA.idem) =
        (if key ≠ "" then aset sB.idem key (commitTx sB f t amt key) else sB.idem)
      rw [hid, hct]
    · show sA.nextPtr = sB.nextPtr
      exact hnp
    · show sA.nextId + 1 = sB.nextId + 1
      omega
    · show sA.clock + 1 = sB.clock + 1
      omega
    · show ∀ q, q ≠ p →
        alookup (applyTransfer sA.heap fromAcc.balPtr toAcc.balPtr amt.currency amt.amount) q =
        alookup (applyTransfer sB.heap fromAcc.balPtr toAcc.balPtr amt.currency amt.amount) q
      exact applyTransfer_congr hag hfptr htptr amt.currency amt.amount
    · show p ∉ acctPtrs (commitState sA fromAcc toAcc f t amt key)
      exact hpn
    · show p < sA.nextPtr
      exact hpl
  | getAcct id =>
    have houtA : step sA (.getAcct id) =
        (.acct (getAccount sA id).1, (getAccount sA id).2) := rfl
    have houtB : step sB (.getAcct id) =
        (.acct (getAccount sB id).1, (getAccount sB id).2) := rfl
    rw [houtA, houtB]
    cases hl : alookup sA.accts id with
    | none =>
      have hlB : alookup sB.accts id = none := by
        rw [← ha]
        exact hl
      rw [getAccount_missing sA id hl, getAccount_missing sB id hlB]
      exact ⟨rfl, ha, hseq, htx, hid, hnp, hni, hcl, hag, hpn, hpl⟩
    | some acc =>
      have hlB : alookup sB.accts id = some acc := by
        rw [← ha]
        exact hl
      have haptr : acc.balPtr ≠ p := by
        intro hq
        exact hpn (hq ▸ List.mem_map.mpr ⟨(id, acc), alookup_mem hl, rfl⟩)
      have hcopy : heapGet sA acc.balPtr = heapGet sB acc.balPtr := by
        unfold heapGet
        rw [hag acc.balPtr haptr]
      rw [getAccount_found sA id hl, getAccount_found sB id hlB]
      refine ⟨by rw [hnp], ha, hseq, htx, hid, ?_, hni, hcl, ?_, hpn, ?_⟩
      · show sA.nextPtr + 1 = sB.nextPtr + 1
        omega
      · show ∀ q, q ≠ p → alookup (aset sA.heap sA.nextPtr (heapGet sA acc.balPtr)) q =
          alookup (aset sB.heap sB.nextPtr (heapGet sB acc.balPtr)) q
        rw [← hnp, ← hcopy]
        exact alookup_aset_congr hag _ _
      · show p < sA.nextPtr + 1
        omega
  | getBal id c =>
    have houtA : step sA (.getBal id c) =
        (.money (getBalance sA id c).1, (getBalance sA id c).2) := rfl
    have houtB : step sB (.getBal id c) =
        (.money (getBalance sB id c).1, (getBalance sB id c).2) := rfl
    rw [houtA, houtB]
    cases hl : alookup sA.accts id with
    | none =>
      have hlB : alookup sB.accts id = none := by
        rw [← ha]
        exact hl
      rw [getBalance_missing sA id c hl, getBalance_missing sB id c hlB]
      exact ⟨rfl, ha, hseq, htx, hid, hnp, hni, hcl, hag, hpn, hpl⟩
    | some acc =>
      have hlB : alookup sB.accts id = some acc := by
        rw [← ha]
        exact hl
      have haptr : acc.balPtr ≠ p := by
        intro hq
        exact hpn (hq ▸ List.mem_map.mpr ⟨(id, acc), alookup_mem hl, rfl⟩)
      have hcopy : heapGet sA acc.balPtr = heapGet sB acc.balPtr := by
        unfold heapGet
        rw [hag acc.balPtr haptr]
      rw [getBalance_found sA id c hl, getBalance_found sB id c hlB]
      exact ⟨by rw [hcopy], ha, hseq, htx, hid, hnp, hni, hcl, hag, hpn, hpl⟩
  | list lim aft =>
    constructor
    · show Out.txPage (listTransactions sA lim aft).1 =
        Out.txPage (listTransactions sB lim aft).1
      unfold listTransactions
      rw [htx]
    · exact ⟨ha, hseq, htx, hid, hnp, hni, hcl, hag, hpn, hpl⟩

theorem run_frame (ops : List Op) (p : Nat) (sA sB : LState) (h : FrameRel p sA sB) :
    (run ops sA).1 = (run ops sB).1 := by
  induction ops generalizing sA sB with
  | nil => rfl
  | cons op rest ih =>
    have hs := step_frame p sA sB op h
    show (step sA op).1 :: (run rest (step sA op).2).1 =
      (step sB op).1 :: (run rest (step sB op).2).1
    rw [hs.1, ih _ _ hs.2]

/-- Claim C10: read operations neither mutate nor leak ledger state.
`GetBalance` and `ListTransactions` return the state exactly unchanged;
`GetAccount` leaves the accounts map, sequence counter, transaction list and
idempotency cache unchanged and preserves every previously allocated balance
cell (it only allocates the fresh copy cell); and on success the returned
account's balance map is a fresh cell shared with no stored account, so
overwriting it with arbitrary contents changes the observable result of no
subsequent sequence of ledger operations. -/
theorem claim_C10_reads_frame :
    (∀ (s : LState) (id : Nat),
      (getAccount s id).2.accts = s.accts ∧ (getAccount s id).2.seq = s.seq ∧
      (getAccount s id).2.txs = s.txs ∧ (getAccount s id).2.idem = s.idem ∧
      (∀ q, q < s.nextPtr → alookup (getAccount s id).2.heap q = alookup s.heap q)) ∧
    (∀ (s : LState) (id : Nat) (c : String), (getBalance s id c).2 = s) ∧
    (∀ (s : LState) (lim : Int) (aft : Nat), (listTransactions s lim aft).2 = s) ∧
    (∀ (s : LState) (id : Nat) (acc : Account) (s1 : LState), WF s →
      getAccount s id = (.ok acc, s1) →
      acc.balPtr ∉ acctPtrs s1 ∧
      ∀ (v : List (String × Int)) (ops : List Op),
        (run ops { s1 with heap := aset s1.heap acc.balPtr v }).1 = (run ops s1).1) := by
  refine ⟨?_, ?_, ?_, ?_⟩
  · intro s id
    cases hl : alookup s.accts id with
    | none =>
      rw [getAccount_missing s id hl]
      exact ⟨rfl, rfl, rfl, rfl, fun q _ => rfl⟩
    | some acc =>
      rw [getAccount_found s id hl]
      refine ⟨rfl, rfl, rfl, rfl, ?_⟩
      intro q hq
      show alookup (aset s.heap s.nextPtr (heapGet s acc.balPtr)) q = alookup s.heap q
      exact alookup_aset_ne _ _ (by omega)
  · intro s id c
    exact getBalance_state s id c
  · intro s lim aft
    rfl
  · intro s id acc s1 hwf heq
    cases hl : alookup s.accts id with
    | none =>
      rw [getAccount_missing s id hl] at heq
      simp at heq
    | some acc0 =>
      rw [getAccount_found s id hl] at heq
      simp only [Prod.mk.injEq, Except.ok.injEq] at heq
      have hacc : acc.balPtr = s.nextPtr := by
        rw [← heq.1]
      have hptrs : acctPtrs s1 = acctPtrs s := by
        rw [← heq.2]
        rfl
      have hnot : acc.balPtr ∉ acctPtrs s1 := by
        rw [hptrs, hacc]
        intro hmem
        have := hwf.2.2.2 s.nextPtr hmem
        omega
      refine ⟨hnot, ?_⟩
      intro v ops
      refine run_frame ops acc.balPtr _ s1 ?_
      refine ⟨rfl, rfl, rfl, rfl, rfl, rfl, rfl, ?_, ?_, ?_⟩
      · intro q hq
        show alookup (aset s1.heap acc.balPtr v) q = alookup s1.heap q
        exact alookup_aset_ne _ _ (fun hk => hq hk.symm)
      · show acc.balPtr ∉ acctPtrs { s1 with heap := aset s1.heap acc.balPtr v }
        rw [show acctPtrs { s1 with heap := aset s1.heap acc.balPtr v } =
          acctPtrs s1 from rfl]
        exact hnot
      · show acc.balPtr < s1.nextPtr
        rw [← heq.2, hacc]
        show s.nextPtr < s.nextPtr + 1
        omega

/-- State with a single account seeded with 100 QZN, for the C10 scenario. -/
def c10State : LState := runState [.create { currency := "QZN", amount := 100 }]

theorem claim_C10_witness :
    ({ id := 0, createdAt := 0, balPtr := 1 } : Account).balPtr ∉
      acctPtrs (getAccount c10State 0).2 ∧
    (run [.getBal 0 "QZN"]
        { (getAccount c10State 0).2 with
          heap := aset (getAccount c10State 0).2.heap 1 [("QZN", 55)] }).1 =
      (run [.getBal 0 "QZN"] (getAccount c10State 0).2).1 :=
  have h4 := claim_C10_reads_frame.2.2.2 c10State 0
    { id := 0, createdAt := 0, balPtr := 1 } (getAccount c10State 0).2
    (by decide) (by decide)
  ⟨h4.1, h4.2 [("QZN", 55)] [.getBal 0 "QZN"]⟩

/-- Go `unicode.IsSpace`, the white-space predicate used by
`strings.TrimSpace`: Latin-1 white space plus the Unicode space code
points. -/
def goIsSpace (ch : Char) : Bool :=
  ch = ' ' || ch = '\t' || ch = '\n' || ch = Char.ofNat 0x0B || ch = Char.ofNat 0x0C ||
  ch = '\r' || ch = Char.ofNat 0x85 || ch = Char.ofNat 0xA0 || ch = Char.ofNat 0x1680 ||
  (0x2000 ≤ ch.toNat && ch.toNat ≤ 0x200A) || ch = Char.ofNat 0x2028 ||
  ch = Char.ofNat 0x2029 || ch = Char.ofNat 0x202F || ch = Char.ofNat 0x205F ||
  ch = Char.ofNat 0x3000

/-- `strings.TrimSpace` on a rune list: drop white space from both ends. -/
def goTrimList (l : List Char) : List Char :=
  ((l.dropWhile goIsSpace).reverse.dropWhile goIsSpace).reverse

/-- `strings.TrimSpace`. -/
def goTrim (s : String) : String := ⟨goTrimList s.data⟩

/-- The rune loop of `splitStatements` (internal/migrate/manager.go): every
rune is appended to the current statement; a single quote toggles the
`inString` flag; a semicolon outside a string flushes the current statement;
after the loop the leftover is kept only when not all white space. -/
def splitLoop : List Char → List Char → Bool → List (List Char)
  | [], cur, _ => if goTrimList cur ≠ [] then [cur] else []
  | r :: rest, cur, inString =>
    if r = '\'' then splitLoop rest (cur ++ [r]) (!inString)
    else if r = ';' then
      if !inString then (cur ++ [r]) :: splitLoop rest [] inString
      else splitLoop rest (cur ++ [r]) inString
    else splitLoop rest (cur ++ [r]) inString

/-- `splitStatements` from the migration runner. -/
def splitStatements (sql : String) : List String :=
  (splitLoop sql.data [] false).map (fun l => (⟨l⟩ : String))

theorem goTrimList_eq_nil_iff (l : List Char) :
    goTrimList l = [] ↔ ∀ ch ∈ l, goIsSpace ch := by
  unfold goTrimList
  rw [List.reverse_eq_nil_iff, List.dropWhile_eq_nil_iff]
  constructor
  · intro h ch hch
    rw [← @List.takeWhile_append_dropWhile Char goIsSpace l] at hch
    rcases List.mem_append.mp hch with hch | hch
    · exact List.mem_takeWhile_imp hch
    · exact h ch (List.mem_reverse.mpr hch)
  · intro h ch hch
    exact h ch ((List.dropWhile_sublist _).subset (List.mem_reverse.mp hch))

theorem splitLoop_dropLast_semi (input : List Char) :
    ∀ (cur : List Char) (b : Bool),
      ∀ st ∈ (splitLoop input cur b).dropLast, st.getLast? = some ';' := by
  induction input with
  | nil =>
    intro cur b st hst
    by_cases h : goTrimList cur ≠ [] <;> simp [splitLoop, h] at hst
  | cons r rest ih =>
    intro cur b st hst
    by_cases hq : r = '\''
    · rw [show splitLoop (r :: rest) cur b = splitLoop rest (cur ++ [r]) (!b) from by
        simp [splitLoop, hq]] at hst
      exact ih _ _ st hst
    · by_cases hs : r = ';'
      · cases b with
        | false =>
          rw [show splitLoop (r :: rest) cur false =
              (cur ++ [r]) :: splitLoop rest [] false from by simp [splitLoop, hq, hs]] at hst
          cases hL : splitLoop rest ([] : List Char) false with
          | nil =>
            rw [hL] at hst
            simp at hst
          | cons a L2 =>
            rw [hL, List.dropLast_cons_of_ne_nil (by simp)] at hst
            rcases List.mem_cons.mp hst with hst | hst
            · rw [hst, hs]
              simp
            · have hih := ih [] false st
              rw [hL] at hih
              exact hih hst
        | true =>
          rw [show splitLoop (r :: rest) cur true =
              splitLoop rest (cur ++ [r]) true from by simp [splitLoop, hq, hs]] at hst
          exact ih _ _ st hst
      · rw [show splitLoop (r :: rest) cur b = splitLoop rest (cur ++ [r]) b from by
          simp [splitLoop, hq, hs]] at hst
        exact ih _ _ st hst

theorem splitLoop_join (input : List Char) :
    ∀ (cur : List Char) (b : Bool),
      ∃ rest : List Char,
        (splitLoop input cur b).flatten ++ rest = cur ++ input ∧
        ∀ ch ∈ rest, goIsSpace ch := by
  induction input with
  | nil =>
    intro cur b
    by_cases h : goTrimList cur ≠ []
    · refine ⟨[], ?_, by simp⟩
      simp [splitLoop, h]
    · refine ⟨cur, ?_, ?_⟩
      · simp [splitLoop, h]
      · push_neg at h
        exact (goTrimList_eq_nil_iff cur).mp h
  | cons r rest ih =>
    intro cur b
    by_cases hq : r = '\''
    · obtain ⟨tail, htail, hsp⟩ := ih (cur ++ [r]) (!b)
      refine ⟨tail, ?_, hsp⟩
      rw [show splitLoop (r :: rest) cur b = splitLoop rest (cur ++ [r]) (!b) from by
        simp [splitLoop, hq], htail]
      simp
    · by_cases hs : r = ';'
      · cases b with
        | false =>
          obtain ⟨tail, htail, hsp⟩ := ih [] false
          refine ⟨tail, ?_, hsp⟩
          rw [show splitLoop (r :: rest) cur false =
              (cur ++ [r]) :: splitLoop rest [] false from by simp [splitLoop, hq, hs]]
          rw [List.flatten_cons, List.append_assoc, htail]
          simp
        | true =>
          obtain ⟨tail, htail, hsp⟩ := ih (cur ++ [r]) true
          refine ⟨tail, ?_, hsp⟩
          rw [show splitLoop (r :: rest) cur true =
              splitLoop rest (cur ++ [r]) true from by simp [splitLoop, hq, hs], htail]
          simp
      · obtain ⟨tail, htail, hsp⟩ := ih (cur ++ [r]) b
        refine ⟨tail, ?_, hsp⟩
        rw [show splitLoop (r :: rest) cur b = splitLoop rest (cur ++ [r]) b from by
          simp [splitLoop, hq, hs], htail]
        simp

theorem splitLoop_parity (input : List Char) :
    ∀ (cur : List Char) (b : Bool) (j : Nat),
      j + 1 < (splitLoop input cur b).length →
      (((splitLoop input cur b).take (j + 1)).flatten.count '\'') % 2 =
        (cur.count '\'' + (if b then 1 else 0)) % 2 := by
  induction input with
  | nil =>
    intro cur b j hj
    by_cases h : goTrimList cur ≠ [] <;> simp [splitLoop, h] at hj
  | cons r rest ih =>
    intro cur b j hj
    by_cases hq : r = '\''
    · rw [show splitLoop (r :: rest) cur b = splitLoop rest (cur ++ [r]) (!b) from by
        simp [splitLoop, hq]] at hj ⊢
      have hih := ih (cur ++ [r]) (!b) j hj
      rw [hih]
      have hone : List.count '\'' [r] = 1 := by
        rw [hq]
        rfl
      have hcnt : (cur ++ [r]).count '\'' = cur.count '\'' + 1 := by
        rw [List.count_append, hone]
      rw [hcnt]
      cases b with
      | false =>
        simp only [Bool.not_false, eq_self_iff_true, if_true, Bool.false_eq_true, if_false]
        omega
      | true =>
        simp only [Bool.not_true, eq_self_iff_true, if_true, Bool.false_eq_true, if_false]
    · have hone : List.count '\'' [r] = 0 := by
        simp [List.count_cons, hq]
      have hcnt : (cur ++ [r]).count '\'' = cur.count '\'' := by
        rw [List.count_append, hone]
        omega
      by_cases hs : r = ';'
      · cases b with
        | false =>
          rw [show splitLoop (r :: rest) cur false =
              (cur ++ [r]) :: splitLoop rest [] false from by
            simp [splitLoop, hq, hs]] at hj ⊢
          cases j with
          | zero =>
            show ([cur ++ [r]].flatten.count '\'') % 2 = _
            simp only [List.flatten_cons, List.flatten_nil, List.append_nil]
            rw [hcnt]
            simp
          | succ j2 =>
            have htake : ((cur ++ [r]) :: splitLoop rest [] false).take (j2 + 1 + 1) =
                (cur ++ [r]) :: (splitLoop rest [] false).take (j2 + 1) := rfl
            rw [htake, List.flatten_cons, List.count_append]
            have hlen : j2 + 1 < (splitLoop rest ([] : List Char) false).length := by
              simp only [List.length_cons] at hj
              omega
            have hih : ((splitLoop rest [] false).take (j2 + 1)).flatten.count '\'' % 2 = 0 := by
              simpa using ih [] false j2 hlen
            rw [hcnt]
            simp only [Bool.false_eq_true, if_false, Nat.add_zero]
            omega
        | true =>
          rw [show splitLoop (r :: rest) cur true =
              splitLoop rest (cur ++ [r]) true from by simp [splitLoop, hq, hs]] at hj ⊢
          have hih := ih (cur ++ [r]) true j hj
          rw [hih, hcnt]
      · rw [show splitLoop (r :: rest) cur b = splitLoop rest (cur ++ [r]) b from by
          simp [splitLoop, hq, hs]] at hj ⊢
        have hih := ih (cur ++ [r]) b j hj
        rw [hih, hcnt]

theorem splitLoop_tail_not_space (input : List Char) :
    ∀ (cur : List Char) (b : Bool) (st : List Char),
      (splitLoop input cur b).getLast? = some st →
      st.getLast? ≠ some ';' → goTrimList st ≠ [] := by
  induction input with
  | nil =>
    intro cur b st hlast hsemi
    by_cases h : goTrimList cur ≠ []
    · rw [show splitLoop [] cur b = [cur] from by simp [splitLoop, h]] at hlast
      simp at hlast
      rw [← hlast]
      exact h
    · rw [show splitLoop [] cur b = [] from by simp [splitLoop, h]] at hlast
      simp at hlast
  | cons r rest ih =>
    intro cur b st hlast hsemi
    by_cases hq : r = '\''
    · rw [show splitLoop (r :: rest) cur b = splitLoop rest (cur ++ [r]) (!b) from by
        simp [splitLoop, hq]] at hlast
      exact ih _ _ st hlast hsemi
    · by_cases hs : r = ';'
      · cases b with
        | false =>
          rw [show splitLoop (r :: rest) cur false =
              (cur ++ [r]) :: splitLoop rest [] false from by
            simp [splitLoop, hq, hs]] at hlast
          cases hL : splitLoop rest ([] : List Char) false with
          | nil =>
            rw [hL] at hlast
            simp at hlast
            rw [← hlast, hs] at hsemi
            simp at hsemi
          | cons a L2 =>
            rw [hL, List.getLast?_cons_cons] at hlast
            have hih := ih [] false st
            rw [hL] at hih
            exact hih hlast hsemi
        | true =>
          rw [show splitLoop (r :: rest) cur true =
              splitLoop rest (cur ++ [r]) true from by simp [splitLoop, hq, hs]] at hlast
          exact ih _ _ st hlast hsemi
      · rw [show splitLoop (r :: rest) cur b = splitLoop rest (cur ++ [r]) b from by
          simp [splitLoop, hq, hs]] at hlast
        exact ih _ _ st hlast hsemi

theorem map_mk_data (L : List (List Char)) :
    (L.map (fun l => (⟨l⟩ : String))).map String.data = L := by
  induction L with
  | nil => rfl
  | cons a L2 ih =>
    simp only [List.map_cons, ih]

/-- Claim C9: the SQL statement splitter.  For every input string: every
returned statement other than possibly the last ends with its semicolon;
the concatenation of the returned statements is a prefix of the input whose
dropped suffix is all white space (so the input is recovered except for an
omitted all-white-space trailing segment); every split point falls outside
single-quoted string literals (the quote count of every proper prefix of
statements is even); and the last statement, when it does not end in a
semicolon, is not all white space. -/
theorem claim_C9_splitStatements (sql : String) :
    (∀ st ∈ (splitStatements sql).dropLast, st.data.getLast? = some ';') ∧
    (∃ rest : List Char,
      ((splitStatements sql).map String.data).flatten ++ rest = sql.data ∧
      ∀ ch ∈ rest, goIsSpace ch) ∧
    (∀ j : Nat, j + 1 < (splitStatements sql).length →
      ((((splitStatements sql).map String.data).take (j + 1)).flatten.count '\'') % 2 = 0) ∧
    (∀ st : String, (splitStatements sql).getLast? = some st →
      st.data.getLast? ≠ some ';' → goTrimList st.data ≠ []) := by
  have hdata : (splitStatements sql).map String.data = splitLoop sql.data [] false := by
    unfold splitStatements
    exact map_mk_data _
  refine ⟨?_, ?_, ?_, ?_⟩
  · intro st hst
    unfold splitStatements at hst
    rw [← List.map_dropLast] at hst
    obtain ⟨l, hl, hlst⟩ := List.mem_map.mp hst
    rw [← hlst]
    exact splitLoop_dropLast_semi sql.data [] false l hl
  · obtain ⟨rest, hjoin, hsp⟩ := splitLoop_join sql.data [] false
    refine ⟨rest, ?_, hsp⟩
    rw [hdata, hjoin]
    rfl
  · intro j hj
    rw [hdata]
    have hlen : j + 1 < (splitLoop sql.data [] false).length := by
      have hh := hj
      unfold splitStatements at hh
      rw [List.length_map] at hh
      exact hh
    have hp := splitLoop_parity sql.data [] false j hlen
    simpa using hp
  · intro st hlast hsemi
    unfold splitStatements at hlast
    rw [List.getLast?_map] at hlast
    cases hL : (splitLoop sql.data [] false).getLast? with
    | none =>
      rw [hL] at hlast
      simp at hlast
    | some l =>
      rw [hL] at hlast
      rw [show Option.map (fun l => (⟨l⟩ : String)) (some l) =
        some (⟨l⟩ : String) from rfl] at hlast
      have hmk := Option.some.inj hlast
      have hsd : st.data = l := by
        rw [← hmk]
      rw [hsd]
      refine splitLoop_tail_not_space sql.data [] false l hL ?_
      rw [← hsd]
      exact hsemi

/-- An input exercising the splitter: two statements, a quoted semicolon, and
trailing white space. -/
def c9Sql : String := "insert into t values (1);select 'a;b';  "

theorem claim_C9_witness :
    ("insert into t values (1);" : String) ∈ (splitStatements c9Sql).dropLast ∧
    ("insert into t values (1);" : String).data.getLast? = some ';' ∧
    ((((splitStatements c9Sql).map String.data).take 1).flatten.count '\'') % 2 = 0 ∧
    (splitStatements "ab" : List String).getLast? = some "ab" ∧
    goTrimList ("ab" : String).data ≠ [] :=
  ⟨by decide,
    (claim_C9_splitStatements c9Sql).1 "insert into t values (1);" (by decide),
    (claim_C9_splitStatements c9Sql).2.2.1 0 (by decide),
    by decide,
    (claim_C9_splitStatements "ab").2.2.2 "ab" (by decide) (by decide)⟩

/-- Go `strings.ToLower` on one rune, for the ASCII range the service's role
names use (Unicode case folding beyond ASCII is out of scope). -/
def goLowerChar (ch : Char) : Char :=
  if h : 65 ≤ ch.toNat ∧ ch.toNat ≤ 90 then
    Char.ofNatAux (ch.toNat + 32) (Or.inl (by omega))
  else ch

/-- Go `strings.ToLower`. -/
def goToLower (s : String) : String := ⟨s.data.map goLowerChar⟩

theorem goLowerChar_idem (ch : Char) : goLowerChar (goLowerChar ch) = goLowerChar ch := by
  unfold goLowerChar
  by_cases h : 65 ≤ ch.toNat ∧ ch.toNat ≤ 90
  · rw [dif_pos h]
    have ht : (Char.ofNatAux (ch.toNat + 32)
        (Or.inl (by omega : ch.toNat + 32 < 0xd800))).toNat = ch.toNat + 32 := rfl
    rw [dif_neg]
    rw [ht]
    omega
  · rw [dif_neg h, dif_neg h]

theorem map_eq_self_of_fixed {α : Type} {f : α → α} {l : List α}
    (h : ∀ c ∈ l, f c = c) : l.map f = l := by
  induction l with
  | nil => rfl
  | cons a rest ih =>
    rw [List.map_cons, h a (List.mem_cons_self a rest),
      ih fun c hc => h c (List.mem_cons_of_mem _ hc)]

theorem mem_goTrimList {ch : Char} {l : List Char} (h : ch ∈ goTrimList l) : ch ∈ l := by
  unfold goTrimList at h
  have h1 := List.mem_reverse.mp h
  have h2 := (List.dropWhile_sublist _).subset h1
  have h3 := List.mem_reverse.mp h2
  exact (List.dropWhile_sublist _).subset h3

theorem dropWhile_dropWhile {α : Type} (p : α → Bool) (l : List α) :
    (l.dropWhile p).dropWhile p = l.dropWhile p := by
  induction l with
  | nil => rfl
  | cons a rest ih =>
    by_cases h : p a
    · rw [List.dropWhile_cons_of_pos h, ih]
    · rw [List.dropWhile_cons_of_neg (by simpa using h),
        List.dropWhile_cons_of_neg (by simpa using h)]

theorem head_dropWhile_not {α : Type} (p : α → Bool) (l : List α) :
    ∀ a, (l.dropWhile p).head? = some a → ¬ p a := by
  induction l with
  | nil =>
    intro a ha
    simp [List.dropWhile] at ha
  | cons x rest ih =>
    intro a ha
    by_cases h : p x
    · rw [List.dropWhile_cons_of_pos h] at ha
      exact ih a ha
    · rw [List.dropWhile_cons_of_neg (by simpa using h)] at ha
      simp at ha
      rw [← ha]
      simpa using h
theorem getLast_dropWhile {α : Type} (p : α → Bool) (l : List α)
    (h : l.dropWhile p ≠ []) : (l.dropWhile p).getLast? = l.getLast? := by
  induction l with
  | nil => simp [List.dropWhile] at h
  | cons x rest ih =>
    by_cases hx : p x
    · rw [List.dropWhile_cons_of_pos hx] at h ⊢
      cases hr : rest with
      | nil =>
        rw [hr] at h
        simp [List.dropWhile] at h
      | cons y rest2 =>
        rw [← hr, ih h, hr, List.getLast?_cons_cons]
    · rw [List.dropWhile_cons_of_neg (by simpa using hx)]

theorem dropWhile_eq_self_of_head {α : Type} (p : α → Bool) (l : List α)
    (h : ∀ a, l.head? = some a → ¬ p a) : l.dropWhile p = l := by
  cases l with
  | nil => rfl
  | cons a rest =>
    have ha := h a rfl
    rw [List.dropWhile_cons_of_neg (by simpa using ha)]

theorem goTrimList_idem (l : List Char) : goTrimList (goTrimList l) = goTrimList l := by
  have hdrop : (goTrimList l).dropWhile goIsSpace = goTrimList l := by
    apply dropWhile_eq_self_of_head
    intro a ha
    unfold goTrimList at ha
    rw [List.head?_reverse] at ha
    have hne : (((l.dropWhile goIsSpace).reverse).dropWhile goIsSpace) ≠ [] := by
      intro hcontra
      rw [hcontra] at ha
      simp at ha
    rw [getLast_dropWhile _ _ hne, List.getLast?_reverse] at ha
    exact head_dropWhile_not goIsSpace l a ha
  show (((goTrimList l).dropWhile goIsSpace).reverse.dropWhile goIsSpace).reverse = _
  rw [hdrop]
  unfold goTrimList
  rw [List.reverse_reverse, dropWhile_dropWhile]

theorem goTrim_idem (s : String) : goTrim (goTrim s) = goTrim s := by
  unfold goTrim
  rw [show (⟨goTrimList s.data⟩ : String).data = goTrimList s.data from rfl,
    goTrimList_idem]

/-- The per-role normalization of `dedupeRoles`:
`strings.TrimSpace(strings.ToLower(role))`. -/
def normRole (s : String) : String := goTrim (goToLower s)

theorem normRole_idem (s : String) : normRole (normRole s) = normRole s := by
  have hfix : ∀ c ∈ goTrimList (s.data.map goLowerChar), goLowerChar c = c := by
    intro c hc
    have hmem := mem_goTrimList hc
    obtain ⟨d, _, hd2⟩ := List.mem_map.mp hmem
    rw [← hd2]
    exact goLowerChar_idem d
  have hlower : goToLower (normRole s) = normRole s := by
    show (⟨(normRole s).data.map goLowerChar⟩ : String) = normRole s
    have hdata : (normRole s).data = goTrimList (s.data.map goLowerChar) := rfl
    rw [hdata, map_eq_self_of_fixed hfix]
    rfl
  show goTrim (goToLower (normRole s)) = normRole s
  rw [hlower]
  show (⟨goTrimList (normRole s).data⟩ : String) = normRole s
  have hdata : (normRole s).data = goTrimList (s.data.map goLowerChar) := rfl
  rw [hdata, goTrimList_idem]
  rfl

/-- The loop of `dedupeRoles` (internal/auth/auth.go): normalize each role,
skip empties and roles already seen, keep first occurrences in order. -/
def dedupeGo : List String → List String → List String
  | [], _ => []
  | role :: rest, seen =>
    let r := normRole role
    if r = "" then dedupeGo rest seen
    else if r ∈ seen then dedupeGo rest seen
    else r :: dedupeGo rest (r :: seen)

/-- `dedupeRoles`: trimmed, lower-cased, empty-free, first-occurrence
de-duplicated role list. -/
def dedupeRoles (roles : List String) : List String := dedupeGo roles []

theorem mem_dedupeGo (l : List String) :
    ∀ (seen : List String) (r : String), r ∈ dedupeGo l seen →
      (∃ x ∈ l, r = normRole x) ∧ r ∉ seen ∧ r ≠ "" := by
  induction l with
  | nil =>
    intro seen r hr
    simp [dedupeGo] at hr
  | cons role rest ih =>
    intro seen r hr
    simp only [dedupeGo] at hr
    by_cases h1 : normRole role = ""
    · rw [if_pos h1] at hr
      obtain ⟨⟨x, hx, hx2⟩, hseen, hne⟩ := ih seen r hr
      exact ⟨⟨x, List.mem_cons_of_mem _ hx, hx2⟩, hseen, hne⟩
    · rw [if_neg h1] at hr
      by_cases h2 : normRole role ∈ seen
      · rw [if_pos h2] at hr
        obtain ⟨⟨x, hx, hx2⟩, hseen, hne⟩ := ih seen r hr
        exact ⟨⟨x, List.mem_cons_of_mem _ hx, hx2⟩, hseen, hne⟩
      · rw [if_neg h2] at hr
        rcases List.mem_cons.mp hr with hr | hr
        · exact ⟨⟨role, List.mem_cons_self _ _, hr⟩, hr ▸ h2, hr ▸ h1⟩
        · obtain ⟨⟨x, hx, hx2⟩, hseen, hne⟩ := ih _ r hr
          refine ⟨⟨x, List.mem_cons_of_mem _ hx, hx2⟩, ?_, hne⟩
          intro hcontra
          exact hseen (List.mem_cons_of_mem _ hcontra)

theorem nodup_dedupeGo (l : List String) :
    ∀ seen : List String, (dedupeGo l seen).Nodup := by
  induction l with
  | nil =>
    intro seen
    simp [dedupeGo]
  | cons role rest ih =>
    intro seen
    simp only [dedupeGo]
    by_cases h1 : normRole role = ""
    · rw [if_pos h1]
      exact ih seen
    · rw [if_neg h1]
      by_cases h2 : normRole role ∈ seen
      · rw [if_pos h2]
        exact ih seen
      · rw [if_neg h2]
        refine List.nodup_cons.mpr ⟨?_, ih _⟩
        intro hcontra
        have := (mem_dedupeGo rest _ _ hcontra).2.1
        exact this (List.mem_cons_self _ _)

theorem dedupeGo_fixed (l : List String) :
    ∀ seen : List String, (∀ x ∈ l, normRole x = x ∧ x ≠ "") → l.Nodup →
      (∀ x ∈ l, x ∉ seen) → dedupeGo l seen = l := by
  induction l with
  | nil =>
    intro seen _ _ _
    rfl
  | cons role rest ih =>
    intro seen hfix hnd hseen
    have hrole := hfix role (List.mem_cons_self _ _)
    simp only [dedupeGo, hrole.1]
    rw [if_neg hrole.2, if_neg (hseen role (List.mem_cons_self _ _))]
    congr 1
    refine ih _ (fun x hx => hfix x (List.mem_cons_of_mem _ hx))
      (List.nodup_cons.mp hnd).2 ?_
    intro x hx hcontra
    rcases List.mem_cons.mp hcontra with hc | hc
    · exact (List.nodup_cons.mp hnd).1 (hc ▸ hx)
    · exact hseen x (List.mem_cons_of_mem _ hx) hc

theorem dedupeRoles_idem (l : List String) : dedupeRoles (dedupeRoles l) = dedupeRoles l := by
  unfold dedupeRoles
  refine dedupeGo_fixed _ [] ?_ (nodup_dedupeGo l []) (by simp)
  intro x hx
  obtain ⟨⟨y, _, hy⟩, _, hne⟩ := mem_dedupeGo l [] x hx
  exact ⟨by rw [hy, normRole_idem], hne⟩

/-- JWT claims as carried by the service (`Claims` embedding
`jwt.RegisteredClaims`); times are seconds. -/
structure TokenClaims where
  roles : List String
  iss : String
  sub : String
  iat : Option Int
  exp : Option Int
  nbf : Option Int
  jti : String
deriving DecidableEq, Repr

/-- A structured HS256 JWT: header algorithm, claims, and signature bytes.
The JSON/base64url wire pairing of github.com/golang-jwt/jwt is treated as
the faithful serialization it implements; the signature is an abstract
HMAC-SHA256 `mac` over the secret, the header algorithm and the claims. -/
structure JwtToken where
  alg : String
  claims : TokenClaims
  sig : List Nat
deriving DecidableEq, Repr

/-- `loadSecret`: the `QAZNA_AUTH_SECRET` environment variable content,
trimmed; empty means the secret is not configured. -/
def loadSecret (env : String) : Except String String :=
  let raw := goTrim env
  if raw = "" then .error "auth secret is not configured" else .ok raw

/-- `GenerateToken` from internal/auth/auth.go: trim and require the user id,
require a positive ttl, load the secret, build the claims (normalized roles,
issuer `qazna`, subject, iat = now, exp = now + ttl, a fresh `jti`), and sign
with HS256.  `now` stands for `time.Now()` and `jti` for the random
`uuid.NewString()`. -/
def GenerateToken (mac : String → String → TokenClaims → List Nat) (env : String)
    (now : Int) (jti : String) (userID : String) (roles : List String) (ttl : Int) :
    Except String JwtToken :=
  let user := goTrim userID
  if user = "" then .error "userID is required"
  else if ttl ≤ 0 then .error "ttl must be greater than zero"
  else
    match loadSecret env with
    | .error e => .error e
    | .ok secret =>
      let claims : TokenClaims :=
        { roles := dedupeRoles roles, iss := "qazna", sub := user,
          iat := some now, exp := some (now + ttl), nbf := none, jti := jti }
      .ok { alg := "HS256", claims := claims, sig := mac secret "HS256" claims }

/-- `validateClaims`: issuer, non-blank subject, both timestamps present, not
expired (`now.After(exp)` fails), not before `nbf`, issued-at within a 5
second skew, and expiry not before issued-at. -/
def validateClaims (now : Int) (c : TokenClaims) : Bool :=
  (c.iss == "qazna") &&
  (!(goTrim c.sub == "")) &&
  c.exp.isSome && c.iat.isSome &&
  (!(decide (c.exp.getD 0 < now))) &&
  (match c.nbf with
    | none => true
    | some b => !(decide (now < b))) &&
  (!(decide (now + 5 < c.iat.getD 0))) &&
  (!(decide (c.exp.getD 0 < c.iat.getD 0)))

/-- The golang-jwt default registered-claims checks run by
`jwt.ParseWithClaims`: a present expiry must be strictly in the future and a
present not-before must have passed. -/
def libClaimsOk (now : Int) (c : TokenClaims) : Bool :=
  (match c.exp with
    | none => true
    | some e => decide (now < e)) &&
  (match c.nbf with
    | none => true
    | some b => decide (b ≤ now))

/-- `ParseAndValidate`: load the secret, let the library check the signing
method, the signature and the registered claims, then run `validateClaims`
and return the claims with the roles normalized again. -/
def ParseAndValidate (mac : String → String → TokenClaims → List Nat) (env : String)
    (now : Int) (tok : JwtToken) : Except String TokenClaims :=
  match loadSecret env with
  | .error e => .error e
  | .ok secret =>
    if tok.alg ≠ "HS256" then .error "invalid token"
    else if tok.sig ≠ mac secret tok.alg tok.claims then .error "invalid token"
    else if ¬ libClaimsOk now tok.claims then .error "invalid token"
    else if ¬ validateClaims now tok.claims then .error "invalid token"
    else .ok { tok.claims with roles := dedupeRoles tok.claims.roles }

/-- The claims record `GenerateToken` builds. -/
def tokenClaimsOf (user jti : String) (roles : List String) (tg ttl : Int) : TokenClaims :=
  { roles := dedupeRoles roles, iss := "qazna", sub := goTrim user,
    iat := some tg, exp := some (tg + ttl), nbf := none, jti := jti }

/-- The token `GenerateToken` signs and returns. -/
def tokenOf (mac : String → String → TokenClaims → List Nat) (env : String)
    (tg : Int) (jti user : String) (roles : List String) (ttl : Int) : JwtToken :=
  { alg := "HS256", claims := tokenClaimsOf user jti roles tg ttl,
    sig := mac (goTrim env) "HS256" (tokenClaimsOf user jti roles tg ttl) }

theorem generateToken_ok (mac : String → String → TokenClaims → List Nat) (env : String)
    (tg : Int) (jti user : String) (roles : List String) (ttl : Int)
    (hsec : goTrim env ≠ "") (huser : goTrim user ≠ "") (httl : 0 < ttl) :
    GenerateToken mac env tg jti user roles ttl =
      .ok (tokenOf mac env tg jti user roles ttl) := by
  have hsecret : loadSecret env = .ok (goTrim env) := by
    unfold loadSecret
    rw [if_neg hsec]
  unfold GenerateToken
  rw [if_neg huser, if_neg (by omega : ¬ ttl ≤ 0)]
  simp only [hsecret]
  rfl

theorem parseAndValidate_ok (mac : String → String → TokenClaims → List Nat) (env : String)
    (tv : Int) (tok : JwtToken) (secret : String)
    (hsec : loadSecret env = .ok secret)
    (halg : tok.alg = "HS256")
    (hsig : tok.sig = mac secret tok.alg tok.claims)
    (hlib : libClaimsOk tv tok.claims = true)
    (hval : validateClaims tv tok.claims = true) :
    ParseAndValidate mac env tv tok =
      .ok { tok.claims with roles := dedupeRoles tok.claims.roles } := by
  unfold ParseAndValidate
  simp only [hsec]
  rw [if_neg (by simp [halg]), if_neg (by simp [hsig]), if_neg (by simp [hlib]),
    if_neg (by simp [hval])]

/-- Claim C8 (amended): token round-trip.  With the signing secret configured
(non-blank environment value), for every user id that is non-empty after
trimming, every role list, every positive ttl and any deterministic HMAC,
parsing the generated token at any time from issuance up to (strictly
before) expiry succeeds and yields subject equal to the trimmed user id,
roles equal to the normalized role list (trimmed, lower-cased, first
occurrences kept in order), and an expiry strictly in the future at
validation time.  (The unamended claim said the subject equals the user id
exactly as supplied; `GenerateToken` stores the trimmed id — see the
counterexample.) -/
theorem claim_C8_token_roundtrip
    (mac : String → String → TokenClaims → List Nat) (env : String)
    (tg tv : Int) (jti user : String) (roles : List String) (ttl : Int)
    (hsec : goTrim env ≠ "") (huser : goTrim user ≠ "") (httl : 0 < ttl)
    (hord : tg ≤ tv) (hbefore : tv < tg + ttl) :
    ∃ tok : JwtToken,
      GenerateToken mac env tg jti user roles ttl = .ok tok ∧
      ∃ c : TokenClaims, ParseAndValidate mac env tv tok = .ok c ∧
        c.sub = goTrim user ∧ c.roles = dedupeRoles roles ∧
        c.exp = some (tg + ttl) ∧ tv < tg + ttl := by
  have hsecret : loadSecret env = .ok (goTrim env) := by
    unfold loadSecret
    rw [if_neg hsec]
  refine ⟨_, generateToken_ok mac env tg jti user roles ttl hsec huser httl, ?_⟩
  have hlib : libClaimsOk tv (tokenClaimsOf user jti roles tg ttl) = true := by
    unfold libClaimsOk tokenClaimsOf
    simp only [Bool.and_eq_true, decide_eq_true_eq]
    exact ⟨hbefore, trivial⟩
  have hval : validateClaims tv (tokenClaimsOf user jti roles tg ttl) = true := by
    unfold validateClaims tokenClaimsOf
    simp only [goTrim_idem, Option.isSome_some, Option.getD_some, Bool.and_eq_true,
      beq_self_eq_true, Bool.not_eq_true', beq_eq_false_iff_ne, ne_eq,
      decide_eq_false_iff_not, not_lt, true_and, and_true]
    exact ⟨⟨⟨huser, by omega⟩, by omega⟩, by omega⟩
  have hparse := parseAndValidate_ok mac env tv (tokenOf mac env tg jti user roles ttl)
    (goTrim env) hsecret rfl rfl hlib hval
  refine ⟨_, hparse, rfl, ?_, rfl, hbefore⟩
  show dedupeRoles (dedupeRoles roles) = dedupeRoles roles
  exact dedupeRoles_idem roles

theorem claim_C8_witness :
    ∃ tok : JwtToken,
      GenerateToken (fun _ _ _ => []) "s" 0 "j" "alice" ["Admin", " admin "] 10 = .ok tok ∧
      ∃ c : TokenClaims, ParseAndValidate (fun _ _ _ => []) "s" 5 tok = .ok c ∧
        c.sub = goTrim "alice" ∧ c.roles = dedupeRoles ["Admin", " admin "] ∧
        c.exp = some (0 + 10) ∧ (5 : Int) < 0 + 10 :=
  claim_C8_token_roundtrip (fun _ _ _ => []) "s" 0 5 "j" "alice" ["Admin", " admin "] 10
    (by decide) (by decide) (by decide) (by decide) (by decide)

/-- The claims of the token the C8 counterexample generates for the
untrimmed user id (also the claims its parse returns). -/
def c8Claims : TokenClaims :=
  { roles := [], iss := "qazna", sub := "alice",
    iat := some 0, exp := some 10, nbf := none, jti := "j" }

/-- The token the C8 counterexample generates. -/
def c8Tok : JwtToken := { alg := "HS256", claims := c8Claims, sig := [] }

/-- Counterexample to claim C8 as stated: for the user id `"alice "` (non-empty
after trimming), the round trip succeeds but the subject is the trimmed
`"alice"`, not the supplied `"alice "`. -/
theorem claim_C8_counterexample :
    goTrim "alice " ≠ "" ∧
    GenerateToken (fun _ _ _ => []) "s" 0 "j" "alice " [] 10 = .ok c8Tok ∧
    ParseAndValidate (fun _ _ _ => []) "s" 5 c8Tok = .ok c8Claims ∧
    c8Claims.sub ≠ "alice " := by
  refine ⟨by decide, by decide, by decide, by decide⟩

/-- An HTTP response as the middleware produces it: the status code, the
headers set on the response writer, and the body bytes written. -/
structure HttpResponse where
  status : Nat
  headers : List (String × String)
  body : String
deriving DecidableEq, Repr

/-- The inner handler's response used in the C6 scenario. -/
def c6Next : HttpResponse := { status := 200, headers := [], body := "ok" }

/-- `RateLimit` (internal/httpapi/middleware.go) as a function of the request
method and of the token-bucket decision for the client's bucket
(`lim.Allow()`, abstracted as `allow`; the bucket bookkeeping and sweep do
not influence the response): a non-positive burst or rate disables the
limiter, an OPTIONS request bypasses it, an allowed request is passed to the
inner handler, and a denied request is answered directly with
`WriteHeader(429)` and the plain-text body `rate limit exceeded` — no
header is set on the deny path. -/
def RateLimit (burst perSecond : Int) (next : HttpResponse) (method : String)
    (allow : Bool) : HttpResponse :=
  if burst ≤ 0 ∨ perSecond ≤ 0 then next
  else if method = "OPTIONS" then next
  else if allow then next
  else { status := 429, headers := [], body := "rate limit exceeded" }

/-- Claim C6 (code bug): evaluated at the failing input — a denied GET with
burst 1 and 1 request per second — the middleware responds 429 but sets no
`Retry-After` header and writes the plain text `rate limit exceeded`
instead of a JSON error envelope; the package's own test
(`TestRateLimitExceeded` in middleware_test.go) requires the header and a
JSON body with `error` and `request_id` fields.  The OPTIONS-bypass half of
the claim does hold. -/
theorem claim_C6_rate_limit_deny :
    (RateLimit 1 1 c6Next "GET" false).status = 429 ∧
    alookup (RateLimit 1 1 c6Next "GET" false).headers "Retry-After" = none ∧
    (RateLimit 1 1 c6Next "GET" false).body = "rate limit exceeded" ∧
    (∀ allow : Bool, RateLimit 1 1 c6Next "OPTIONS" allow = c6Next) := by
  refine ⟨rfl, rfl, rfl, ?_⟩
  intro allow
  rfl

/-- The radix-64 alphabet of golang.org/x/crypto/bcrypt (`./A-Za-z0-9`). -/
def bcryptAlphabet : List Char :=
  "./ABCDEFGHIJKLMNOPQRSTUVWXYZabcdefghijklmnopqrstuvwxyz0123456789".data

/-- The alphabet character at index `n`. -/
def b64Char (n : Nat) : Char := bcryptAlphabet.getD n '.'

def b64IndexAux : List Char → Char → Nat → Nat
  | [], _, _ => 0
  | a :: rest, c, i => if a = c then i else b64IndexAux rest c (i + 1)

/-- Index of a character in the bcrypt alphabet. -/
def b64Index (c : Char) : Nat := b64IndexAux bcryptAlphabet c 0

/-- The library's `base64Encode`: unpadded base64 over the bcrypt alphabet
(bytes are `Nat`s below 256; three bytes become four characters, one or two
trailing bytes become two or three). -/
def bcryptB64Encode : List Nat → List Char
  | [] => []
  | [a] => [b64Char (a / 4), b64Char (a % 4 * 16)]
  | [a, b] => [b64Char (a / 4), b64Char (a % 4 * 16 + b / 16), b64Char (b % 16 * 4)]
  | a :: b :: c :: rest =>
      b64Char (a / 4) :: b64Char (a % 4 * 16 + b / 16) ::
        b64Char (b % 16 * 4 + c / 64) :: b64Char (c % 64) :: bcryptB64Encode rest

/-- The library's `base64Decode`, inverse direction of the encoding. -/
def bcryptB64Decode : List Char → List Nat
  | [] => []
  | [_] => []
  | [w, x] => [b64Index w * 4 + b64Index x / 16]
  | [w, x, y] =>
      [b64Index w * 4 + b64Index x / 16, b64Index x % 16 * 16 + b64Index y / 4]
  | w :: x :: y :: z :: rest =>
      (b64Index w * 4 + b64Index x / 16) ::
        (b64Index x % 16 * 16 + b64Index y / 4) ::
        (b64Index y % 4 * 64 + b64Index z) :: bcryptB64Decode rest

/-- `bcrypt.DefaultCost`. -/
def bcryptDefaultCost : Nat := 10

/-- The `%02d` rendering of the cost (costs are at most 31, so two digits). -/
def costDigits (cost : Nat) : List Char :=
  [Char.ofNat (48 + cost / 10 % 10), Char.ofNat (48 + cost % 10)]

/-- The byte view of a Go string; code points stand for bytes, faithful for
the ASCII data involved here. -/
def strBytes (s : String) : List Nat := s.data.map Char.toNat

/-- `hashed.Hash()` of golang.org/x/crypto/bcrypt: `$2a$`, the two cost
digits, `$`, the 22-character encoded salt, then the encoded digest.
`core` abstracts the EksBlowfish cipher (`expensiveBlowfishSetup` plus the
64 encryptions of the magic block, truncated to 23 bytes): it maps the
password bytes, the cost and the decoded salt to the digest bytes, and is a
parameter because its internals are irrelevant to the claim — both the
generating and the verifying path feed it the same way the library does. -/
def bcryptHash (core : List Nat → Nat → List Nat → List Nat)
    (cost : Nat) (saltEnc : List Char) (password : List Nat) : List Char :=
  '$' :: '2' :: 'a' :: '$' ::
    (costDigits cost ++ '$' ::
      (saltEnc ++ bcryptB64Encode (core password cost (bcryptB64Decode saltEnc))))

/-- `bcrypt.GenerateFromPassword` with the 16 random salt bytes made
explicit: passwords over 72 bytes are rejected, a cost below `MinCost` (4)
is raised to the default, a cost above 31 is rejected, and otherwise the
hash is rendered from the encoded salt. -/
def generateFromPassword (core : List Nat → Nat → List Nat → List Nat)
    (salt : List Nat) (password : List Nat) (cost : Nat) :
    Except String (List Char) :=
  if 72 < password.length then .error "bcrypt: password length exceeds 72 bytes"
  else
    let c := if cost < 4 then bcryptDefaultCost else cost
    if 31 < c then .error "crypto/bcrypt: cost out of range"
    else .ok (bcryptHash core c (bcryptB64Encode salt) password)

/-- `HashPassword` (src/unnamed/part_010): reject the empty password, then
`bcrypt.GenerateFromPassword([]byte(password), bcrypt.DefaultCost)`; the
16 random salt bytes the library draws are the `salt` parameter. -/
def HashPassword (core : List Nat → Nat → List Nat → List Nat)
    (salt : List Nat) (password : String) : Except String String :=
  if password.data.length = 0 then .error "password is empty"
  else
    match generateFromPassword core salt (strBytes password) bcryptDefaultCost with
    | .error e => .error e
    | .ok h => .ok ⟨h⟩

/-- The library's `newFromHash` restricted to the `$2a$` shape that
`HashPassword` emits: read the two cost digits, the 22-character encoded
salt and the digest. -/
def parseBcryptHash : List Char → Option (Nat × List Char × List Char)
  | '$' :: '2' :: 'a' :: '$' :: d1 :: d2 :: '$' :: rest =>
      if rest.length < 22 then none
      else some ((d1.toNat - 48) * 10 + (d2.toNat - 48), rest.take 22, rest.drop 22)
  | _ => none

/-- `VerifyPassword` (src/unnamed/part_010): reject the empty stored hash,
then `bcrypt.CompareHashAndPassword`: parse the stored hash, recompute the
digest from the candidate password with the embedded cost and salt, and
compare (`subtle.ConstantTimeCompare`). -/
def VerifyPassword (core : List Nat → Nat → List Nat → List Nat)
    (hash password : String) : Except String Unit :=
  if hash = "" then .error "password hash is empty"
  else
    match parseBcryptHash hash.data with
    | none => .error "crypto/bcrypt: hashedSecret too short to be a bcrypted password"
    | some (cost, saltEnc, digest) =>
        if bcryptB64Encode (core (strBytes password) cost (bcryptB64Decode saltEnc)) = digest
        then .ok ()
        else .error "crypto/bcrypt: hashedPassword is not the hash of the given password"

/-- Encoding `3 * n + 1` bytes yields `4 * n + 2` characters. -/
theorem bcryptB64Encode_len31 (n : Nat) :
    ∀ l : List Nat, l.length = 3 * n + 1 → (bcryptB64Encode l).length = 4 * n + 2 := by
  induction n with
  | zero =>
      intro l h
      cases l with
      | nil => simp only [List.length_nil] at h; omega
      | cons a t =>
          cases t with
          | nil => rfl
          | cons b t2 => simp only [List.length_cons] at h; omega
  | succ m ih =>
      intro l h
      cases l with
      | nil => simp only [List.length_nil] at h; omega
      | cons a t =>
          cases t with
          | nil => simp only [List.length_cons, List.length_nil] at h; omega
          | cons b t2 =>
              cases t2 with
              | nil => simp only [List.length_cons, List.length_nil] at h; omega
              | cons c rest =>
                  have hr : rest.length = 3 * m + 1 := by
                    simp only [List.length_cons] at h; omega
                  have hstep : bcryptB64Encode (a :: b :: c :: rest) =
                      b64Char (a / 4) :: b64Char (a % 4 * 16 + b / 16) ::
                        b64Char (b % 16 * 4 + c / 64) :: b64Char (c % 64) ::
                        bcryptB64Encode rest := rfl
                  rw [hstep]
                  simp only [List.length_cons]
                  rw [ih rest hr]
                  omega

/-- Parsing a rendered default-cost hash recovers the cost, the encoded
salt and the digest, provided the encoded salt has its 22 characters. -/
theorem parseBcryptHash_hash (encS digest : List Char) (h22 : encS.length = 22) :
    parseBcryptHash ('$' :: '2' :: 'a' :: '$' :: '1' :: '0' :: '$' :: (encS ++ digest)) =
      some (bcryptDefaultCost, encS, digest) := by
  have hlen : ¬ (encS ++ digest).length < 22 := by
    rw [List.length_append, h22]; omega
  have htake : (encS ++ digest).take 22 = encS := by
    rw [← h22]; exact List.take_left encS digest
  have hdrop : (encS ++ digest).drop 22 = digest := by
    rw [← h22]; exact List.drop_left encS digest
  simp only [parseBcryptHash, if_neg hlen, htake, hdrop]
  rfl

/-- Claim C5: `HashPassword` rejects the empty password and otherwise
produces a bcrypt `$2a$` hash (not an Argon2id PHC string), and
`VerifyPassword` accepts the producing password — and exactly the
candidates whose recomputed digest under the stored cost and salt encodes
to the stored digest.  The 16 salt bytes the library draws and the
EksBlowfish core are parameters; the password is at most 72 bytes, as the
library demands. -/
theorem claim_C5_password_hashing (core : List Nat → Nat → List Nat → List Nat)
    (salt : List Nat) (password : String)
    (hsalt : salt.length = 16) (hpw : password ≠ "")
    (h72 : (strBytes password).length ≤ 72) :
    ∃ h : String,
      HashPassword core salt password = .ok h ∧
      h.data.take 4 = "$2a$".data ∧
      h.data.take 15 ≠ "$argon2id$v=19$".data ∧
      VerifyPassword core h password = .ok () ∧
      HashPassword core salt "" = .error "password is empty" ∧
      (∀ pw2 : String,
        VerifyPassword core h pw2 = .ok () ↔
          bcryptB64Encode (core (strBytes pw2) bcryptDefaultCost
              (bcryptB64Decode (bcryptB64Encode salt))) =
            bcryptB64Encode (core (strBytes password) bcryptDefaultCost
              (bcryptB64Decode (bcryptB64Encode salt)))) := by
  have hd : ¬ password.data.length = 0 := by
    intro h0
    apply hpw
    cases password with
    | mk d =>
        have : d = [] := List.length_eq_zero.mp h0
        rw [this]
  have hencLen : (bcryptB64Encode salt).length = 22 := by
    have := bcryptB64Encode_len31 5 salt (by omega)
    omega
  have h72n : ¬ 72 < (strBytes password).length := by omega
  refine ⟨⟨'$' :: '2' :: 'a' :: '$' :: '1' :: '0' :: '$' ::
      (bcryptB64Encode salt ++
        bcryptB64Encode (core (strBytes password) bcryptDefaultCost
          (bcryptB64Decode (bcryptB64Encode salt))))⟩, ?_, ?_, ?_, ?_, ?_, ?_⟩
  · simp only [HashPassword, if_neg hd, generateFromPassword, if_neg h72n]
    rfl
  · rfl
  · intro hco
    simp only [List.take_succ_cons] at hco
    exact absurd hco (by simp)
  · have hne2 : (⟨'$' :: '2' :: 'a' :: '$' :: '1' :: '0' :: '$' ::
        (bcryptB64Encode salt ++
          bcryptB64Encode (core (strBytes password) bcryptDefaultCost
            (bcryptB64Decode (bcryptB64Encode salt)))) ⟩ : String) ≠ "" := by
      simp [String.ext_iff]
    simp only [VerifyPassword, if_neg hne2,
      parseBcryptHash_hash _ _ hencLen]
    simp
  · rfl
  · intro pw2
    have hne2 : (⟨'$' :: '2' :: 'a' :: '$' :: '1' :: '0' :: '$' ::
        (bcryptB64Encode salt ++
          bcryptB64Encode (core (strBytes password) bcryptDefaultCost
            (bcryptB64Decode (bcryptB64Encode salt)))) ⟩ : String) ≠ "" := by
      simp [String.ext_iff]
    simp only [VerifyPassword, if_neg hne2,
      parseBcryptHash_hash _ _ hencLen]
    by_cases hc : bcryptB64Encode (core (strBytes pw2) bcryptDefaultCost
        (bcryptB64Decode (bcryptB64Encode salt))) =
      bcryptB64Encode (core (strBytes password) bcryptDefaultCost
        (bcryptB64Decode (bcryptB64Encode salt)))
    · rw [if_pos hc]
      simp [hc]
    · rw [if_neg hc]
      simp [hc]

/-- A concrete stand-in for the EksBlowfish core, for evaluation. -/
def c5Core : List Nat → Nat → List Nat → List Nat := fun p _ s => p ++ s

/-- A concrete 16-byte salt. -/
def c5Salt : List Nat := List.replicate 16 0

theorem claim_C5_witness :
    c5Salt.length = 16 ∧ ("secret" : String) ≠ "" ∧ (strBytes "secret").length ≤ 72 ∧
    ∃ h : String,
      HashPassword c5Core c5Salt "secret" = .ok h ∧
      h.data.take 4 = "$2a$".data ∧
      h.data.take 15 ≠ "$argon2id$v=19$".data ∧
      VerifyPassword c5Core h "secret" = .ok () ∧
      HashPassword c5Core c5Salt "" = .error "password is empty" ∧
      (∀ pw2 : String,
        VerifyPassword c5Core h pw2 = .ok () ↔
          bcryptB64Encode (c5Core (strBytes pw2) bcryptDefaultCost
              (bcryptB64Decode (bcryptB64Encode c5Salt))) =
            bcryptB64Encode (c5Core (strBytes "secret") bcryptDefaultCost
              (bcryptB64Decode (bcryptB64Encode c5Salt)))) :=
  ⟨by decide, by decide, by decide,
    claim_C5_password_hashing c5Core c5Salt "secret" (by decide) (by decide) (by decide)⟩

/-- The hash the bcrypt-based `HashPassword` actually produces for the
concrete inputs of the counterexample. -/
def c5Hash : String := (HashPassword c5Core c5Salt "secret").toOption.getD ""

/-- Counterexample to claim C5 as stated: on a non-empty password the hash
`HashPassword` returns begins with `$2a$`, not with the claimed
`$argon2id$v=19$` — the cited `HashPassword` uses bcrypt, not Argon2id
(the Argon2id implementation lives in `internal/auth/rbac.go`). -/
theorem claim_C5_counterexample :
    HashPassword c5Core c5Salt "secret" = .ok c5Hash ∧
    c5Hash.data.take 15 ≠ "$argon2id$v=19$".data ∧
    c5Hash.data.take 4 = "$2a$".data := by decide

end Qazna
